import Mathlib

/-!
Shallow embedding of the `UMMAP_MRI_Sync_To_Box` repository
(`dir_entry_node.py`, `ummap_mri_sync_to_box.py`,
`ummap_mri_sync_to_box_helpers.py`) together with proofs about the
claims of its specification.

Modelling conventions:
* A local filesystem directory is an `FSDir`; its entries are already
  partitioned into sub-directories and sub-files (the Python code
  partitions the single `os.scandir` listing with two comprehensions,
  preserving enumeration order inside each part).
* A DICOM file on disk is summarised by the data the code reads from
  it: its name, its `SeriesDescription` tag and its last-modified
  instant (an integer; aware `datetime` comparison in Python compares
  absolute instants, so normalising to US-Eastern does not change the
  order).
* Regular-expression parameters become `String → Bool` predicates; the
  two patterns that are hard-coded in the sources
  (`^i\d+\.MRDC\.\d+$` and `^s\d{5}$`) are implemented concretely.
* Fallible code (`pydicom` attribute access raising `AttributeError`)
  is modelled with `Except String`.
-/

/-- A `DirEntryNode` wrapping a file: name of the entry, the
`SeriesDescription` stored in the file on disk, its last-modified
instant, and the node depth. -/
structure FileNode where
  name : String
  tag : String
  mtime : Int
  depth : Nat
deriving Repr, DecidableEq

/-- A file entry of the local filesystem. -/
structure FSFile where
  name : String
  tag : String
  mtime : Int
deriving Repr, DecidableEq

/-- A directory of the local filesystem, its `os.scandir` listing
partitioned into sub-directories and sub-files. -/
inductive FSDir : Type where
  | mk (name : String) (subdirs : List FSDir) (subfiles : List FSFile) : FSDir

def FSDir.name : FSDir → String
  | .mk n _ _ => n

def FSDir.subdirs : FSDir → List FSDir
  | .mk _ ds _ => ds

def FSDir.subfiles : FSDir → List FSFile
  | .mk _ _ fs => fs

@[simp] theorem fsdirNameMk (n : String) (ds : List FSDir) (fs : List FSFile) :
    (FSDir.mk n ds fs).name = n := rfl

@[simp] theorem fsdirSubdirsMk (n : String) (ds : List FSDir) (fs : List FSFile) :
    (FSDir.mk n ds fs).subdirs = ds := rfl

@[simp] theorem fsdirSubfilesMk (n : String) (ds : List FSDir) (fs : List FSFile) :
    (FSDir.mk n ds fs).subfiles = fs := rfl

/-- A `DirEntryNode` wrapping a directory: the entry name, the depth,
the child folder nodes and the child file nodes
(`child_dir_entry_node_folders` / `child_dir_entry_node_files`). -/
inductive DirNode : Type where
  | mk (name : String) (depth : Nat) (folders : List DirNode) (files : List FileNode) : DirNode

def DirNode.name : DirNode → String
  | .mk n _ _ _ => n

def DirNode.depth : DirNode → Nat
  | .mk _ d _ _ => d

def DirNode.folders : DirNode → List DirNode
  | .mk _ _ fs _ => fs

def DirNode.files : DirNode → List FileNode
  | .mk _ _ _ fs => fs

@[simp] theorem dirNodeNameMk (n : String) (d : Nat) (fs : List DirNode)
    (fls : List FileNode) : (DirNode.mk n d fs fls).name = n := rfl

@[simp] theorem dirNodeDepthMk (n : String) (d : Nat) (fs : List DirNode)
    (fls : List FileNode) : (DirNode.mk n d fs fls).depth = d := rfl

@[simp] theorem dirNodeFoldersMk (n : String) (d : Nat) (fs : List DirNode)
    (fls : List FileNode) : (DirNode.mk n d fs fls).folders = fs := rfl

@[simp] theorem dirNodeFilesMk (n : String) (d : Nat) (fs : List DirNode)
    (fls : List FileNode) : (DirNode.mk n d fs fls).files = fls := rfl

/-- Implementation of the anchored pattern `^i\d+\.MRDC\.\d+$`
(`rgx_subfile` / `rgx_dicom` in the sources).  `re.match` anchors at
the start and the trailing `$` forces a full match; the greedy `\d+`
cannot eat the literal dot, so no backtracking is involved. -/
def matchDicomName (s : String) : Bool :=
  match s.data with
  | 'i' :: cs =>
    let ds := cs.takeWhile Char.isDigit
    let rest := cs.dropWhile Char.isDigit
    decide (ds ≠ []) &&
      (match rest with
       | '.' :: 'M' :: 'R' :: 'D' :: 'C' :: '.' :: tail =>
         decide (tail ≠ []) && tail.all Char.isDigit
       | _ => false)
  | _ => false

/-- Implementation of the anchored pattern `^s\d{5}$` used by
`DirEntryNode.build_tree_from_node` to recognise study-level
directories. -/
def matchStudyName (s : String) : Bool :=
  match s.data with
  | 's' :: cs => decide (cs.length = 5) && cs.all Char.isDigit
  | _ => false

/-- Helper for termination arguments: filtering never increases the
`sizeOf` of a list. -/
theorem sizeOf_filter_le {α : Type} [SizeOf α] (p : α → Bool) (l : List α) :
    sizeOf (l.filter p) ≤ sizeOf l := by
  induction l with
  | nil => simp
  | cons x xs ih =>
    by_cases h : p x
    · simp [List.filter_cons, h]
      omega
    · simp [List.filter_cons, h]
      have : sizeOf xs ≤ 1 + sizeOf x + sizeOf xs := by omega
      omega

mutual

/-- `DirEntryNode.build_tree_from_node`: builds children of the node
for directory `d` sitting at `depth`.  Entries are filtered by the two
name patterns; child folder nodes are recursed into.  For study-level
directories (`^s\d{5}$`) the children are built only when the
`os.listdir` entry count is below 250 — otherwise the two filtered
loops are never executed and the node keeps no children. -/
def build_tree_from_node (rgxFolder rgxFile : String → Bool) : FSDir → Nat → DirNode
  | .mk name subdirs subfiles, depth =>
    if ¬ matchStudyName name then
      DirNode.mk name depth
        (build_forest rgxFolder rgxFile (subdirs.filter (fun d => rgxFolder d.name)) (depth + 1))
        ((subfiles.filter (fun f => rgxFile f.name)).map
          (fun f => FileNode.mk f.name f.tag f.mtime (depth + 1)))
    else
      if subdirs.length + subfiles.length < 250 then
        DirNode.mk name depth
          (build_forest rgxFolder rgxFile (subdirs.filter (fun d => rgxFolder d.name)) (depth + 1))
          ((subfiles.filter (fun f => rgxFile f.name)).map
            (fun f => FileNode.mk f.name f.tag f.mtime (depth + 1)))
      else
        DirNode.mk name depth [] []
termination_by d _ => sizeOf d
decreasing_by
  all_goals simp_wf
  · exact Nat.lt_of_le_of_lt (sizeOf_filter_le _ _) (by omega)
  · exact Nat.lt_of_le_of_lt (sizeOf_filter_le _ _) (by omega)

/-- The loop over filtered sub-directories inside
`build_tree_from_node`: each one becomes a new child node built
recursively at the same depth `k = parent depth + 1`. -/
def build_forest (rgxFolder rgxFile : String → Bool) : List FSDir → Nat → List DirNode
  | [], _ => []
  | d :: ds, k =>
    build_tree_from_node rgxFolder rgxFile d k :: build_forest rgxFolder rgxFile ds k
termination_by ds _ => sizeOf ds
decreasing_by
  all_goals (simp_wf; try omega)

end

/-- A `pydicom` `Dataset` as the code uses it: either the empty
`pydicom.Dataset()` (which carries no `SeriesDescription` element) or
a dataset read from disk by `dcmread`, carrying the file's
`SeriesDescription`. -/
inductive Dataset : Type where
  | empty : Dataset
  | withSeries (descrip : String) : Dataset
deriving Repr, DecidableEq

/-- The message of the `AttributeError` that `pydicom` raises when the
`SeriesDescription` attribute is read from an empty `Dataset`. -/
def attributeErrorMsg : String :=
  "AttributeError: Dataset does not have attribute SeriesDescription"

/-- Reading `dataset.SeriesDescription`: succeeds on a dataset read
from disk, raises `AttributeError` on the empty dataset. -/
def Dataset.seriesDescription : Dataset → Except String String
  | .empty => .error attributeErrorMsg
  | .withSeries d => .ok d

/-- `DirEntryNode.get_local_dicom_dataset` (with its default
`rgx_dicom = ^i\d+\.MRDC\.\d+$`): returns `dcmread`'s dataset when the
entry name matches the DICOM filename pattern and the fresh empty
`pydicom.Dataset()` otherwise.  It never raises. -/
def get_local_dicom_dataset (f : FileNode) : Dataset :=
  if matchDicomName f.name then Dataset.withSeries f.tag else Dataset.empty

mutual

/-- `DirEntryNode.search_at_or_below_for_dicom_dataset_series_descrip`:
first recurses into child folders (returning `true` at the first
match), then scans the direct child files, reading each file's dataset
and matching the sequence pattern against its `SeriesDescription`.
Modelled in `Except` because the attribute access can raise. -/
def search_series_descrip (rgx : String → Bool) : DirNode → Except String Bool
  | .mk _ _ folders files => do
    let b ← search_series_descrip_folders rgx folders
    if b then pure true else search_series_descrip_files rgx files
termination_by t => sizeOf t
decreasing_by
  all_goals (simp_wf; try omega)

/-- The folder loop of the search: short-circuits on the first child
folder below which a match is found. -/
def search_series_descrip_folders (rgx : String → Bool) : List DirNode → Except String Bool
  | [] => pure false
  | c :: cs => do
    let b ← search_series_descrip rgx c
    if b then pure true else search_series_descrip_folders rgx cs
termination_by cs => sizeOf cs
decreasing_by
  all_goals (simp_wf; try omega)

/-- The file loop of the search: reads each file's dataset with
`get_local_dicom_dataset`, then accesses its `SeriesDescription`
(raising on the empty dataset) and matches the pattern. -/
def search_series_descrip_files (rgx : String → Bool) : List FileNode → Except String Bool
  | [] => pure false
  | f :: fs => do
    let d ← (get_local_dicom_dataset f).seriesDescription
    if rgx d then pure true else search_series_descrip_files rgx fs

end

mutual

/-- `DirEntryNode.prune_nodes_without_dicom_dataset_series_descrip`:
for each child folder, if a matching series description is found at or
below it the child is pruned recursively, otherwise it is removed with
`remove_child`.  The Python loop iterates the list object captured at
loop entry while `remove_child` rebinds the attribute to a freshly
filtered list (and removal compares by object identity), so the net
effect is an order-preserving filter with recursion into the kept
children.  Modelled in `Except` because the search can raise. -/
def prune_nodes (rgx : String → Bool) : DirNode → Except String DirNode
  | .mk n d folders files => do
    let folders' ← prune_nodes_folders rgx folders
    pure (DirNode.mk n d folders' files)
termination_by t => sizeOf t
decreasing_by
  all_goals (simp_wf; try omega)

/-- The loop inside `prune_nodes_without_dicom_dataset_series_descrip`
over the child folder list. -/
def prune_nodes_folders (rgx : String → Bool) : List DirNode → Except String (List DirNode)
  | [] => pure []
  | c :: cs => do
    let b ← search_series_descrip rgx c
    if b then do
      let c' ← prune_nodes rgx c
      let cs' ← prune_nodes_folders rgx cs
      pure (c' :: cs')
    else
      prune_nodes_folders rgx cs
termination_by cs => sizeOf cs
decreasing_by
  all_goals (simp_wf; try omega)

end

/-- Structural induction principle for the nested inductive `DirNode`:
to prove a property of every node it suffices to prove it for a node
assuming it for all child folder nodes. -/
def DirNode.inductionOn (motive : DirNode → Prop)
    (step : ∀ name depth folders files,
      (∀ c ∈ folders, motive c) → motive (DirNode.mk name depth folders files)) :
    ∀ t, motive t
  | .mk n d fs fls =>
    step n d fs fls (fun c hc => DirNode.inductionOn motive step c)
termination_by t => sizeOf t
decreasing_by
  simp_wf
  have := List.sizeOf_lt_of_mem hc
  omega

/-- Spec-side restatement of the search ("at least one file node at or
below the node has a descriptive tag matching the pattern"), total
because it reads the tag stored in the file directly. -/
def existsMatchingFileBelow (rgx : String → Bool) : DirNode → Bool
  | .mk _ _ folders files =>
    files.any (fun f => rgx f.tag) ||
      folders.attach.any (fun c => existsMatchingFileBelow rgx c.1)
termination_by t => sizeOf t
decreasing_by
  simp_wf
  have := List.sizeOf_lt_of_mem c.2
  omega

/-- Every file node at or below the node has a name matching the DICOM
filename pattern, so all dataset reads succeed. -/
def allRecognized : DirNode → Bool
  | .mk _ _ folders files =>
    files.all (fun f => matchDicomName f.name) &&
      folders.attach.all (fun c => allRecognized c.1)
termination_by t => sizeOf t
decreasing_by
  simp_wf
  have := List.sizeOf_lt_of_mem c.2
  omega

/-- No two sibling folder nodes anywhere in the tree share a name. -/
def nodupSiblings : DirNode → Bool
  | .mk _ _ folders files =>
    decide (folders.map DirNode.name).Nodup &&
      decide (files.map FileNode.name).Nodup &&
      folders.attach.all (fun c => nodupSiblings c.1)
termination_by t => sizeOf t
decreasing_by
  simp_wf
  have := List.sizeOf_lt_of_mem c.2
  omega

/-- Follow a path of folder names down from a node; `some` exactly
when each name on the path resolves (via first match, unambiguous
under `nodupSiblings`) to a child folder node. -/
def followPath : DirNode → List String → Option DirNode
  | t, [] => some t
  | t, n :: ns =>
    match t.folders.find? (fun c => c.name == n) with
    | some c => followPath c ns
    | none => none

/-- The fields of a local `os.DirEntry` that the Box helpers read. -/
structure LocalEntry where
  name : String
  isDir : Bool
  isFile : Bool
deriving Repr, DecidableEq

/-- A Box File as the code reads it: stable id, name, and
last-modified instant (`modified_at`, parsed by
`datetime.fromisoformat`; aware datetimes compare as instants). -/
structure BoxFile where
  id : String
  name : String
  mtime : Int
deriving Repr, DecidableEq

/-- A Box Folder together with the subtree of remote state below it:
stable id, name, child Box Folders and child Box Files (the partition
of `get_items` by the `type` tag). -/
inductive BoxFolder : Type where
  | mk (id : String) (name : String) (folders : List BoxFolder) (files : List BoxFile) : BoxFolder

def BoxFolder.id : BoxFolder → String
  | .mk i _ _ _ => i

def BoxFolder.name : BoxFolder → String
  | .mk _ n _ _ => n

def BoxFolder.folders : BoxFolder → List BoxFolder
  | .mk _ _ fs _ => fs

def BoxFolder.files : BoxFolder → List BoxFile
  | .mk _ _ _ fs => fs

@[simp] theorem boxFolderIdMk (i n : String) (fs : List BoxFolder)
    (fls : List BoxFile) : (BoxFolder.mk i n fs fls).id = i := rfl

@[simp] theorem boxFolderNameMk (i n : String) (fs : List BoxFolder)
    (fls : List BoxFile) : (BoxFolder.mk i n fs fls).name = n := rfl

@[simp] theorem boxFolderFoldersMk (i n : String) (fs : List BoxFolder)
    (fls : List BoxFile) : (BoxFolder.mk i n fs fls).folders = fs := rfl

@[simp] theorem boxFolderFilesMk (i n : String) (fs : List BoxFolder)
    (fls : List BoxFile) : (BoxFolder.mk i n fs fls).files = fls := rfl

/-- Counts of the remote operations a sync run performs. -/
structure Ops where
  deletes : Nat
  creates : Nat
  updates : Nat
deriving Repr, DecidableEq

def Ops.zero : Ops := Ops.mk 0 0 0

instance : Add Ops :=
  ⟨fun a b => Ops.mk (a.deletes + b.deletes) (a.creates + b.creates) (a.updates + b.updates)⟩

theorem Ops.add_def (a b : Ops) :
    a + b = Ops.mk (a.deletes + b.deletes) (a.creates + b.creates) (a.updates + b.updates) := rfl

/-- `ummap_mri_sync_to_box_helpers.get_corresponding_box_subfolder`:
scans the full remote subfolder listing; every subfolder whose name
equals the local entry's name (the entry also being a directory)
overwrites the target, so the last such subfolder wins; `None` when
nothing matches. -/
def get_corresponding_box_subfolder (localSubfolder : LocalEntry)
    (box_subfolders : List BoxFolder) : Option BoxFolder :=
  box_subfolders.foldl
    (fun target bf =>
      if localSubfolder.name == bf.name && localSubfolder.isDir then some bf else target)
    none

/-- `ummap_mri_sync_to_box_helpers.get_corresponding_box_subfile`:
same scan over the remote subfile listing. -/
def get_corresponding_box_subfile (localSubfile : LocalEntry)
    (box_subfiles : List BoxFile) : Option BoxFile :=
  box_subfiles.foldl
    (fun target bf =>
      if localSubfile.name == bf.name && localSubfile.isFile then some bf else target)
    none

/-- `ummap_mri_sync_to_box_helpers.delete_box_subfolders_not_found_in_local`:
targets are the Box subfolders whose name is absent from the local
subfolder names; each target's recursive delete call is attempted in
turn, its boolean outcome given by `deleteOk` (the value returned by
`box_subfolder.delete(recursive=True)`), and only the ids of
successful deletions are collected. -/
def delete_box_subfolders_not_found_in_local (deleteOk : BoxFolder → Bool)
    (local_subfolders : List LocalEntry) (box_subfolders : List BoxFolder) : List String :=
  let local_subfolders_names := local_subfolders.map LocalEntry.name
  let subfolders_not_in_local_in_box :=
    box_subfolders.filter (fun bf => ¬ local_subfolders_names.contains bf.name)
  (subfolders_not_in_local_in_box.filter deleteOk).map BoxFolder.id

/-- The removal targets of `DirEntryNode.remove_box_subfolders`
(`subfolders_in_box_not_in_treeobj`): Box subfolders whose name is not
among the node's child folder-node names. -/
def subfolders_in_box_not_in_treeobj (tree_folder_names : List String)
    (box_subfolders : List BoxFolder) : List BoxFolder :=
  box_subfolders.filter (fun bf => ¬ tree_folder_names.contains bf.name)

/-- The removal targets of `DirEntryNode.remove_box_subfiles`. -/
def subfiles_in_box_not_in_treeobj (tree_file_names : List String)
    (box_subfiles : List BoxFile) : List BoxFile :=
  box_subfiles.filter (fun bf => ¬ tree_file_names.contains bf.name)

/-- The creation targets of `DirEntryNode.create_box_subfolders`
(`subfolders_in_treeobj_not_in_box`): child folder nodes whose name is
absent from the Box subfolder names. -/
def subfolders_in_treeobj_not_in_box (box_subfolder_names : List String)
    (tree_folders : List DirNode) : List DirNode :=
  tree_folders.filter (fun c => ¬ box_subfolder_names.contains c.name)

/-- The complementary partition of `DirEntryNode.create_box_subfolders`
(`subfolders_in_treeobj_in_box`). -/
def subfolders_in_treeobj_in_box (box_subfolder_names : List String)
    (tree_folders : List DirNode) : List DirNode :=
  tree_folders.filter (fun c => box_subfolder_names.contains c.name)

/-- The creation targets of `DirEntryNode.create_box_subfiles`
(`subfiles_in_treeobj_not_in_box`). -/
def subfiles_in_treeobj_not_in_box (box_subfile_names : List String)
    (tree_files : List FileNode) : List FileNode :=
  tree_files.filter (fun f => ¬ box_subfile_names.contains f.name)

/-- The update candidates of `DirEntryNode.update_box_subfiles`
(`subfiles_in_treeobj_in_box`). -/
def subfiles_in_treeobj_in_box (box_subfile_names : List String)
    (tree_files : List FileNode) : List FileNode :=
  tree_files.filter (fun f => box_subfile_names.contains f.name)

/-- `DirEntryNode.remove_box_subfolders`: deletes each removal target
recursively (deletions modelled as succeeding, as in claim C7's
setting), leaving the remaining subfolders in listing order; returns
the remaining subfolders and the names removed. -/
def remove_box_subfolders (tree_folder_names : List String)
    (box_subfolders : List BoxFolder) : List BoxFolder × List String :=
  (box_subfolders.filter (fun bf => tree_folder_names.contains bf.name),
   (subfolders_in_box_not_in_treeobj tree_folder_names box_subfolders).map BoxFolder.name)

/-- `DirEntryNode.remove_box_subfiles`: same for subfiles. -/
def remove_box_subfiles (tree_file_names : List String)
    (box_subfiles : List BoxFile) : List BoxFile × List String :=
  (box_subfiles.filter (fun bf => tree_file_names.contains bf.name),
   (subfiles_in_box_not_in_treeobj tree_file_names box_subfiles).map BoxFile.name)

/-- `DirEntryNode.create_box_subfiles`: uploads each child file node
whose name is absent from the Box subfile names; every upload appends
a fresh Box File to the listing, stamped with the upload instant `now`
(Box assigns the id; it is modelled by the name, which is unique
within the parent folder). -/
def create_box_subfiles (now : Int) (box_subfile_names : List String)
    (tree_files : List FileNode) (current_files : List BoxFile) :
    List BoxFile × List String :=
  let newOnes := subfiles_in_treeobj_not_in_box box_subfile_names tree_files
  (current_files ++ newOnes.map (fun f => BoxFile.mk f.name f.name now),
   newOnes.map FileNode.name)

/-- In-place mutation of the one Box subfile of a given name (Box
enforces unique names within a folder): the listing with that entry
replaced. -/
def replace_box_subfile (n : String) (newFile : BoxFile)
    (box_subfiles : List BoxFile) : List BoxFile :=
  box_subfiles.map (fun bf => if bf.name == n then newFile else bf)

/-- In-place mutation of the one Box subfolder of a given name. -/
def replace_box_subfolder (n : String) (newFolder : BoxFolder)
    (box_subfolders : List BoxFolder) : List BoxFolder :=
  box_subfolders.map (fun bf => if bf.name == n then newFolder else bf)

/-- The loop of `DirEntryNode.update_box_subfiles` over the
already-filtered `subfiles_in_treeobj_in_box`: each iteration resolves
the corresponding Box subfile from the current listing and overwrites
its contents exactly when the local modified instant is strictly
greater; `update_contents` keeps id and name and stamps the remote
file with the update instant `now`.  Returns the final listing and the
names updated, in loop order.  (A `none` lookup would make Python
raise on `None.modified_at`; it cannot occur in the contexts of the
claims, whose hypotheses keep every candidate name present.) -/
def update_box_subfiles_loop (now : Int) :
    List FileNode → List BoxFile → List BoxFile × List String
  | [], box_subfiles => (box_subfiles, [])
  | f :: fs, box_subfiles =>
    match get_corresponding_box_subfile (LocalEntry.mk f.name false true) box_subfiles with
    | some corres =>
      if corres.mtime < f.mtime then
        let box_subfiles' := replace_box_subfile f.name (BoxFile.mk corres.id f.name now) box_subfiles
        let r := update_box_subfiles_loop now fs box_subfiles'
        (r.1, f.name :: r.2)
      else
        update_box_subfiles_loop now fs box_subfiles
    | none => update_box_subfiles_loop now fs box_subfiles

/-- `DirEntryNode.update_box_subfiles`. -/
def update_box_subfiles (now : Int) (box_subfile_names : List String)
    (tree_files : List FileNode) (current_files : List BoxFile) :
    List BoxFile × List String :=
  update_box_subfiles_loop now
    (subfiles_in_treeobj_in_box box_subfile_names tree_files) current_files

mutual

/-- `DirEntryNode.sync_tree_object_items` (as defined in
`dir_entry_node.py`): fetches the remote listing once, always runs the
removal passes, then the folder creation/recursion pass, the file
creation pass, and — only when `update_files` — the file update pass.
The method has no removal flag; `main` in `ummap_mri_sync_to_box.py`
nevertheless passes `remove_items=` to it.  Returns the resulting
remote folder and the counts of delete/create/update calls issued
anywhere below. -/
def sync_tree_object_items (update_files : Bool) (now : Int) :
    DirNode → BoxFolder → BoxFolder × Ops
  | .mk _tname _tdepth tfolders tfiles, .mk bid bname bfolders bfiles =>
    let box_subfolder_names := bfolders.map BoxFolder.name
    let box_subfile_names := bfiles.map BoxFile.name
    let removedF := remove_box_subfolders (tfolders.map DirNode.name) bfolders
    let removedFl := remove_box_subfiles (tfiles.map FileNode.name) bfiles
    let newF := sync_new_subfolders update_files now
      (subfolders_in_treeobj_not_in_box box_subfolder_names tfolders) removedF.1
    let oldF := sync_old_subfolders update_files now
      (subfolders_in_treeobj_in_box box_subfolder_names tfolders) newF.1
    let createdFl := create_box_subfiles now box_subfile_names tfiles removedFl.1
    let updatedFl :=
      if update_files then update_box_subfiles now box_subfile_names tfiles createdFl.1
      else (createdFl.1, [])
    (BoxFolder.mk bid bname oldF.1 updatedFl.1,
     Ops.mk (removedF.2.length + removedFl.2.length) createdFl.2.length updatedFl.2.length
       + newF.2 + oldF.2)
termination_by t _ => sizeOf t
decreasing_by
  · simp_wf
    simp only [subfolders_in_treeobj_not_in_box]
    exact Nat.lt_of_le_of_lt (sizeOf_filter_le _ _) (by omega)
  · simp_wf
    simp only [subfolders_in_treeobj_in_box]
    exact Nat.lt_of_le_of_lt (sizeOf_filter_le _ _) (by omega)

/-- The first loop of `DirEntryNode.create_box_subfolders`, over
`subfolders_in_treeobj_not_in_box`: creates an empty same-named Box
subfolder (appended to the listing; the Box-assigned id is modelled by
the name, unique within the parent), then immediately recurses into
it. -/
def sync_new_subfolders (update_files : Bool) (now : Int) :
    List DirNode → List BoxFolder → List BoxFolder × Ops
  | [], box_subfolders => (box_subfolders, Ops.zero)
  | c :: cs, box_subfolders =>
    let r := sync_tree_object_items update_files now c (BoxFolder.mk c.name c.name [] [])
    let rest := sync_new_subfolders update_files now cs (box_subfolders ++ [r.1])
    (rest.1, Ops.mk 0 1 0 + r.2 + rest.2)
termination_by cs _ => sizeOf cs
decreasing_by
  all_goals (simp_wf; try omega)

/-- The second loop of `DirEntryNode.create_box_subfolders`, over
`subfolders_in_treeobj_in_box`: resolves the existing Box subfolder by
name from the current listing and recurses into it; the mutation of
that folder's subtree is the replacement of the one entry of that name
(Box names are unique within a folder).  (A `none` lookup would make
Python raise inside the recursive call; it cannot occur in the
contexts of the claims, whose invariants keep every such name
present.) -/
def sync_old_subfolders (update_files : Bool) (now : Int) :
    List DirNode → List BoxFolder → List BoxFolder × Ops
  | [], box_subfolders => (box_subfolders, Ops.zero)
  | c :: cs, box_subfolders =>
    match get_corresponding_box_subfolder (LocalEntry.mk c.name true false) box_subfolders with
    | some cb =>
      let r := sync_tree_object_items update_files now c cb
      let rest := sync_old_subfolders update_files now cs
        (replace_box_subfolder c.name r.1 box_subfolders)
      (rest.1, r.2 + rest.2)
    | none => sync_old_subfolders update_files now cs box_subfolders
termination_by cs _ => sizeOf cs
decreasing_by
  all_goals (simp_wf; try omega)

end

/-- A `for`-loop that keeps overwriting an optional target on every
match returns the last match of the listing. -/
theorem foldl_last_match {α : Type} (p : α → Bool) (l : List α) :
    l.foldl (fun acc x => if p x then some x else acc) none = (l.filter p).getLast? := by
  induction l using List.reverseRecOn with
  | nil => rfl
  | append_singleton l x ih =>
    rw [List.foldl_append, List.filter_append]
    by_cases h : p x
    · simp [h, List.getLast?_concat]
    · simp [h, ih]

/-- For a directory entry, the subfolder lookup is the last name
match of the listing. -/
theorem get_corresponding_box_subfolder_eq_getLast (e : LocalEntry) (he : e.isDir = true)
    (l : List BoxFolder) :
    get_corresponding_box_subfolder e l = (l.filter (fun bf => e.name == bf.name)).getLast? := by
  unfold get_corresponding_box_subfolder
  simp only [he, Bool.and_true]
  exact foldl_last_match (fun bf => e.name == bf.name) l

/-- For a file entry, the subfile lookup is the last name match of the
listing. -/
theorem get_corresponding_box_subfile_eq_getLast (e : LocalEntry) (he : e.isFile = true)
    (l : List BoxFile) :
    get_corresponding_box_subfile e l = (l.filter (fun bf => e.name == bf.name)).getLast? := by
  unfold get_corresponding_box_subfile
  simp only [he, Bool.and_true]
  exact foldl_last_match (fun bf => e.name == bf.name) l

/-- Claim C10: resolving a remote subfolder or subfile by name scans
the full remote child listing and returns the last entry whose name
equals the local entry's name; when no remote child of that name
exists it returns `None` rather than raising, and when several remote
children share the name the one latest in listing order is chosen. -/
theorem corresponding_lookup_last_match
    (e1 e2 : LocalEntry) (fs : List BoxFolder) (fl : List BoxFile)
    (h1 : e1.isDir = true) (h2 : e2.isFile = true) :
    get_corresponding_box_subfolder e1 fs
        = (fs.filter (fun bf => e1.name == bf.name)).getLast?
    ∧ (get_corresponding_box_subfolder e1 fs = none ↔ ∀ bf ∈ fs, bf.name ≠ e1.name)
    ∧ get_corresponding_box_subfile e2 fl
        = (fl.filter (fun bf => e2.name == bf.name)).getLast?
    ∧ (get_corresponding_box_subfile e2 fl = none ↔ ∀ bf ∈ fl, bf.name ≠ e2.name) := by
  refine ⟨get_corresponding_box_subfolder_eq_getLast e1 h1 fs, ?_,
    get_corresponding_box_subfile_eq_getLast e2 h2 fl, ?_⟩
  · rw [get_corresponding_box_subfolder_eq_getLast e1 h1 fs]
    rw [List.getLast?_eq_none_iff, List.filter_eq_nil_iff]
    constructor
    · intro h bf hbf
      have := h bf hbf
      simp only [beq_iff_eq] at this
      exact fun hn => this (hn ▸ rfl)
    · intro h bf hbf
      simp only [beq_iff_eq]
      exact fun hn => h bf hbf hn.symm
  · rw [get_corresponding_box_subfile_eq_getLast e2 h2 fl]
    rw [List.getLast?_eq_none_iff, List.filter_eq_nil_iff]
    constructor
    · intro h bf hbf
      have := h bf hbf
      simp only [beq_iff_eq] at this
      exact fun hn => this (hn ▸ rfl)
    · intro h bf hbf
      simp only [beq_iff_eq]
      exact fun hn => h bf hbf hn.symm

/-- Witness for C10: on a listing holding two subfolders both named
"A", the lookup picks the second. -/
theorem corresponding_lookup_last_match_witness :
    (LocalEntry.mk "A" true false).isDir = true
    ∧ (LocalEntry.mk "A" false true).isFile = true
    ∧ get_corresponding_box_subfolder (LocalEntry.mk "A" true false)
        [BoxFolder.mk "1" "A" [] [], BoxFolder.mk "2" "A" [] []]
      = ([BoxFolder.mk "1" "A" [] [], BoxFolder.mk "2" "A" [] []].filter
          (fun bf => (LocalEntry.mk "A" true false).name == bf.name)).getLast? :=
  ⟨rfl, rfl,
    (corresponding_lookup_last_match (LocalEntry.mk "A" true false) (LocalEntry.mk "A" false true)
      [BoxFolder.mk "1" "A" [] [], BoxFolder.mk "2" "A" [] []] [] rfl rfl).1⟩

/-- Claim C6: with desired name set D (names of the node's child
nodes) and remote name set R (names of the remote children), the
removal targets are exactly R − D and the creation targets exactly
D − R, for folders and for files alike; names in D ∩ R are in neither
target list. -/
theorem name_based_diffing
    (tree_folders : List DirNode) (box_subfolders : List BoxFolder)
    (tree_files : List FileNode) (box_subfiles : List BoxFile) (n : String) :
    (n ∈ (subfolders_in_box_not_in_treeobj (tree_folders.map DirNode.name)
          box_subfolders).map BoxFolder.name
      ↔ n ∈ box_subfolders.map BoxFolder.name ∧ n ∉ tree_folders.map DirNode.name)
    ∧ (n ∈ (subfolders_in_treeobj_not_in_box (box_subfolders.map BoxFolder.name)
          tree_folders).map DirNode.name
      ↔ n ∈ tree_folders.map DirNode.name ∧ n ∉ box_subfolders.map BoxFolder.name)
    ∧ (n ∈ (subfiles_in_box_not_in_treeobj (tree_files.map FileNode.name)
          box_subfiles).map BoxFile.name
      ↔ n ∈ box_subfiles.map BoxFile.name ∧ n ∉ tree_files.map FileNode.name)
    ∧ (n ∈ (subfiles_in_treeobj_not_in_box (box_subfiles.map BoxFile.name)
          tree_files).map FileNode.name
      ↔ n ∈ tree_files.map FileNode.name ∧ n ∉ box_subfiles.map BoxFile.name) := by
  refine ⟨?_, ?_, ?_, ?_⟩ <;>
    simp only [subfolders_in_box_not_in_treeobj, subfolders_in_treeobj_not_in_box,
      subfiles_in_box_not_in_treeobj, subfiles_in_treeobj_not_in_box,
      List.mem_map, List.mem_filter, List.mem_map] <;>
    constructor
  · rintro ⟨bf, ⟨hbf, hc⟩, rfl⟩
    simp at hc
    exact ⟨⟨bf, hbf, rfl⟩, by simpa using hc⟩
  · rintro ⟨⟨bf, hbf, rfl⟩, hn⟩
    exact ⟨bf, ⟨hbf, by simpa using hn⟩, rfl⟩
  · rintro ⟨c, ⟨hc, hm⟩, rfl⟩
    simp at hm
    exact ⟨⟨c, hc, rfl⟩, by simpa using hm⟩
  · rintro ⟨⟨c, hc, rfl⟩, hn⟩
    exact ⟨c, ⟨hc, by simpa using hn⟩, rfl⟩
  · rintro ⟨bf, ⟨hbf, hc⟩, rfl⟩
    simp at hc
    exact ⟨⟨bf, hbf, rfl⟩, by simpa using hc⟩
  · rintro ⟨⟨bf, hbf, rfl⟩, hn⟩
    exact ⟨bf, ⟨hbf, by simpa using hn⟩, rfl⟩
  · rintro ⟨f, ⟨hf, hm⟩, rfl⟩
    simp at hm
    exact ⟨⟨f, hf, rfl⟩, by simpa using hm⟩
  · rintro ⟨⟨f, hf, rfl⟩, hn⟩
    exact ⟨f, ⟨hf, by simpa using hn⟩, rfl⟩

/-- Witness for C6 at a concrete level: remote folders A, B and
desired folders B, C; B is untouched, A is the removal target, C the
creation target. -/
theorem name_based_diffing_witness :
    "A" ∈ (subfolders_in_box_not_in_treeobj
        ([DirNode.mk "B" 1 [] [], DirNode.mk "C" 1 [] []].map DirNode.name)
        [BoxFolder.mk "1" "A" [] [], BoxFolder.mk "2" "B" [] []]).map BoxFolder.name
    ∧ "A" ∉ ([DirNode.mk "B" 1 [] [], DirNode.mk "C" 1 [] []].map DirNode.name) :=
  ⟨((name_based_diffing [DirNode.mk "B" 1 [] [], DirNode.mk "C" 1 [] []]
      [BoxFolder.mk "1" "A" [] [], BoxFolder.mk "2" "B" [] []] [] [] "A").1).mpr
    (by simp),
   by simp⟩

/-- Claim C8: per-item failures in the removal pass are isolated.  For
any outcome assignment `deleteOk` of the per-item delete calls, every
removal target is attempted independently: a target whose own delete
succeeds contributes its id to the collected result regardless of the
other items' outcomes, a target whose delete fails is merely excluded,
and changing the outcome of other items never changes an item's own
membership in the result. -/
theorem removal_failures_isolated
    (deleteOk deleteOk' : BoxFolder → Bool)
    (local_subfolders : List LocalEntry) (box_subfolders : List BoxFolder)
    (b : BoxFolder)
    (hids : ((box_subfolders.filter
        (fun bf => ¬ (local_subfolders.map LocalEntry.name).contains bf.name)).map
          BoxFolder.id).Nodup)
    (hmem : b ∈ box_subfolders)
    (htarget : ¬ (local_subfolders.map LocalEntry.name).contains b.name)
    (hagree : deleteOk b = deleteOk' b) :
    (b.id ∈ delete_box_subfolders_not_found_in_local deleteOk local_subfolders box_subfolders
      ↔ deleteOk b = true)
    ∧ (b.id ∈ delete_box_subfolders_not_found_in_local deleteOk local_subfolders box_subfolders
      ↔ b.id ∈ delete_box_subfolders_not_found_in_local deleteOk' local_subfolders box_subfolders) := by
  have hbt : b ∈ box_subfolders.filter
      (fun bf => ¬ (local_subfolders.map LocalEntry.name).contains bf.name) :=
    List.mem_filter.mpr ⟨hmem, by simpa using htarget⟩
  have key : ∀ ok : BoxFolder → Bool,
      (b.id ∈ delete_box_subfolders_not_found_in_local ok local_subfolders box_subfolders
        ↔ ok b = true) := by
    intro ok
    unfold delete_box_subfolders_not_found_in_local
    simp only [List.mem_map, List.mem_filter]
    constructor
    · rintro ⟨bf, ⟨⟨hbf1, hbf2⟩, hok⟩, hid⟩
      have hbf1' : bf ∈ box_subfolders.filter
          (fun bf => ¬ (local_subfolders.map LocalEntry.name).contains bf.name) :=
        List.mem_filter.mpr ⟨hbf1, hbf2⟩
      have : bf = b := List.inj_on_of_nodup_map hids hbf1' hbt hid
      exact this ▸ hok
    · intro hok
      exact ⟨b, ⟨List.mem_filter.mp hbt, hok⟩, rfl⟩
  exact ⟨key deleteOk, by rw [key deleteOk, key deleteOk', hagree]⟩

/-- Witness for C8: remote folders A (delete succeeds) and B (delete
call fails); A's id is still collected even though B's delete fails. -/
theorem removal_failures_isolated_witness :
    ((([BoxFolder.mk "1" "A" [] [], BoxFolder.mk "2" "B" [] []].filter
        (fun bf => ¬ (([] : List LocalEntry).map LocalEntry.name).contains bf.name)).map
          BoxFolder.id).Nodup)
    ∧ (BoxFolder.mk "1" "A" [] [])
        ∈ [BoxFolder.mk "1" "A" [] [], BoxFolder.mk "2" "B" [] []]
    ∧ ((BoxFolder.mk "1" "A" [] []).id ∈ delete_box_subfolders_not_found_in_local
        (fun bf => bf.name == "A") []
        [BoxFolder.mk "1" "A" [] [], BoxFolder.mk "2" "B" [] []]
      ↔ (fun bf : BoxFolder => bf.name == "A") (BoxFolder.mk "1" "A" [] []) = true) := by
  refine ⟨by simp, by simp, ?_⟩
  exact (removal_failures_isolated (fun bf => bf.name == "A") (fun bf => bf.name == "A") []
    [BoxFolder.mk "1" "A" [] [], BoxFolder.mk "2" "B" [] []]
    (BoxFolder.mk "1" "A" [] []) (by simp) (by simp) (by simp) (by simp)).1

/-- Under unique names, the name-equality filter of a listing
containing `bf` is exactly `[bf]`. -/
theorem filter_name_eq_singleton_file {l : List BoxFile}
    (h : (l.map BoxFile.name).Nodup) {bf : BoxFile} (hm : bf ∈ l) :
    l.filter (fun x => bf.name == x.name) = [bf] := by
  induction l with
  | nil => cases hm
  | cons x xs ih =>
    simp only [List.map_cons, List.nodup_cons, List.mem_map] at h
    rcases List.mem_cons.mp hm with rfl | hmem
    · have : xs.filter (fun x => bf.name == x.name) = [] := by
        rw [List.filter_eq_nil_iff]
        intro y hy
        simp only [beq_iff_eq]
        exact fun hn => h.1 ⟨y, hy, hn.symm⟩
      simp [List.filter_cons, this]
    · have hne : (bf.name == x.name) = false := by
        simp only [beq_eq_false_iff_ne, ne_eq]
        intro hn
        exact h.1 ⟨bf, hmem, hn⟩
      rw [List.filter_cons]
      simp only [hne, Bool.false_eq_true, if_false]
      exact ih h.2 hmem

/-- Under unique names, the subfile lookup of a member's name returns
that member. -/
theorem get_corresponding_box_subfile_of_mem {l : List BoxFile}
    (h : (l.map BoxFile.name).Nodup) {bf : BoxFile} (hm : bf ∈ l) :
    get_corresponding_box_subfile (LocalEntry.mk bf.name false true) l = some bf := by
  rw [get_corresponding_box_subfile_eq_getLast _ rfl]
  simp only
  rw [filter_name_eq_singleton_file h hm]
  rfl

/-- The subfile lookup returns `none` when no listed name matches. -/
theorem get_corresponding_box_subfile_eq_none {l : List BoxFile} {n : String}
    (h : ∀ bf ∈ l, bf.name ≠ n) :
    get_corresponding_box_subfile (LocalEntry.mk n false true) l = none := by
  rw [get_corresponding_box_subfile_eq_getLast _ rfl]
  simp only
  have : l.filter (fun x => n == x.name) = [] := by
    rw [List.filter_eq_nil_iff]
    intro y hy
    simp only [beq_iff_eq]
    exact fun hn => h y hy hn.symm
  rw [this]
  rfl

/-- Replacing by name preserves the listing's name sequence. -/
theorem replace_box_subfile_map_name (n : String) (nf : BoxFile) (hn : nf.name = n)
    (l : List BoxFile) :
    (replace_box_subfile n nf l).map BoxFile.name = l.map BoxFile.name := by
  unfold replace_box_subfile
  rw [List.map_map]
  apply List.map_congr_left
  intro x _
  by_cases hx : (x.name == n) = true
  · simp only [Function.comp_apply, hx, if_pos]
    simp only [beq_iff_eq] at hx
    rw [hn, hx]
  · simp only [Function.comp_apply, hx]
    rw [if_neg (by simp [hx])]

/-- Replacing by one name leaves every entry of a different name in
place. -/
theorem replace_box_subfile_mem_of_ne {l : List BoxFile} {bf : BoxFile} (hm : bf ∈ l)
    {n : String} (hne : bf.name ≠ n) (nf : BoxFile) :
    bf ∈ replace_box_subfile n nf l := by
  unfold replace_box_subfile
  have : bf = if bf.name == n then nf else bf := by simp [hne]
  exact this ▸ List.mem_map_of_mem (fun x => if x.name == n then nf else x) hm

/-- A successful subfile lookup returns a listed entry of the looked-up
name. -/
theorem get_corresponding_box_subfile_some {e : LocalEntry} (he : e.isFile = true)
    {l : List BoxFile} {c : BoxFile}
    (h : get_corresponding_box_subfile e l = some c) : c ∈ l ∧ c.name = e.name := by
  rw [get_corresponding_box_subfile_eq_getLast e he] at h
  have hmem := List.mem_of_mem_getLast? h
  have := List.mem_filter.mp hmem
  refine ⟨this.1, ?_⟩
  have := this.2
  simp only [beq_iff_eq] at this
  exact this.symm

/-- Every name the update loop reports was a candidate file's name. -/
theorem update_box_subfiles_loop_names_sub (now : Int) (l : List FileNode) :
    ∀ (bfs : List BoxFile) (n : String),
      n ∈ (update_box_subfiles_loop now l bfs).2 → n ∈ l.map FileNode.name := by
  induction l with
  | nil => intro bfs n h; simp [update_box_subfiles_loop] at h
  | cons g gs ih =>
    intro bfs n h
    rw [update_box_subfiles_loop] at h
    split at h
    · split at h
      · rcases List.mem_cons.mp h with rfl | h'
        · exact List.mem_cons_self _ _
        · exact List.mem_cons_of_mem _ (ih _ n h')
      · exact List.mem_cons_of_mem _ (ih bfs n h)
    · exact List.mem_cons_of_mem _ (ih bfs n h)

/-- Replacing the entry of one name does not change whether an entry
of a different name with a given property exists. -/
theorem replace_exists_iff {n m : String} (hne : m ≠ n) {nf : BoxFile} (hnf : nf.name = n)
    (l : List BoxFile) (t : Int) :
    (∃ bf ∈ replace_box_subfile n nf l, bf.name = m ∧ bf.mtime < t)
      ↔ (∃ bf ∈ l, bf.name = m ∧ bf.mtime < t) := by
  unfold replace_box_subfile
  constructor
  · rintro ⟨bf, hbf, hname, hmt⟩
    rcases List.mem_map.mp hbf with ⟨x, hx, hbx⟩
    by_cases hxn : (x.name == n) = true
    · rw [if_pos hxn] at hbx
      exact absurd (hbx ▸ hname : nf.name = m) (by rw [hnf]; exact fun hh => hne hh.symm)
    · rw [if_neg hxn] at hbx
      exact ⟨x, hx, hbx ▸ hname, hbx ▸ hmt⟩
  · rintro ⟨bf, hbf, hname, hmt⟩
    refine ⟨bf, ?_, hname, hmt⟩
    have : bf.name ≠ n := hname ▸ hne
    have heq : bf = if bf.name == n then nf else bf := by simp [this]
    exact heq ▸ List.mem_map_of_mem _ hbf

/-- Unfolding: update loop step when the lookup finds the entry. -/
theorem update_box_subfiles_loop_cons_some (now : Int) (g : FileNode) (gs : List FileNode)
    (bfs : List BoxFile) (corres : BoxFile)
    (hc : get_corresponding_box_subfile (LocalEntry.mk g.name false true) bfs = some corres) :
    update_box_subfiles_loop now (g :: gs) bfs =
      if corres.mtime < g.mtime then
        ((update_box_subfiles_loop now gs
            (replace_box_subfile g.name (BoxFile.mk corres.id g.name now) bfs)).1,
         g.name :: (update_box_subfiles_loop now gs
            (replace_box_subfile g.name (BoxFile.mk corres.id g.name now) bfs)).2)
      else update_box_subfiles_loop now gs bfs := by
  rw [update_box_subfiles_loop, hc]

/-- Unfolding: update loop step when the lookup finds nothing. -/
theorem update_box_subfiles_loop_cons_none (now : Int) (g : FileNode) (gs : List FileNode)
    (bfs : List BoxFile)
    (hc : get_corresponding_box_subfile (LocalEntry.mk g.name false true) bfs = none) :
    update_box_subfiles_loop now (g :: gs) bfs = update_box_subfiles_loop now gs bfs := by
  rw [update_box_subfiles_loop, hc]

/-- Membership in the update loop's report: a candidate file's remote
copy is overwritten exactly when the listing holds an entry of its
name with a strictly smaller modified instant. -/
theorem update_box_subfiles_loop_mem (now : Int) (l : List FileNode) :
    ∀ (bfs : List BoxFile),
      (l.map FileNode.name).Nodup → (bfs.map BoxFile.name).Nodup →
      ∀ f ∈ l,
        (f.name ∈ (update_box_subfiles_loop now l bfs).2
          ↔ ∃ bf ∈ bfs, bf.name = f.name ∧ bf.mtime < f.mtime) := by
  induction l with
  | nil => intro bfs _ _ f hf; cases hf
  | cons g gs ih =>
    intro bfs hl hbfs f hf
    have hgs : (gs.map FileNode.name).Nodup := (List.nodup_cons.mp (by simpa using hl)).2
    have hgnot : g.name ∉ gs.map FileNode.name := (List.nodup_cons.mp (by simpa using hl)).1
    rcases hc : get_corresponding_box_subfile (LocalEntry.mk g.name false true) bfs
      with _ | corres
    · -- nothing of g's name is listed
      have hnone : ∀ bf ∈ bfs, bf.name ≠ g.name := by
        intro bf hbf heq
        have h2 := get_corresponding_box_subfile_of_mem hbfs hbf
        rw [heq, hc] at h2
        cases h2
      rw [update_box_subfiles_loop_cons_none now g gs bfs hc]
      rcases List.mem_cons.mp hf with rfl | hf'
      · constructor
        · intro hmem
          exact absurd (update_box_subfiles_loop_names_sub now gs bfs f.name hmem) hgnot
        · rintro ⟨bf, hbf, hname, _⟩
          exact absurd hname (hnone bf hbf)
      · exact ih bfs hgs hbfs f hf'
    · have hcor := get_corresponding_box_subfile_some rfl hc
      rw [update_box_subfiles_loop_cons_some now g gs bfs corres hc]
      by_cases hlt : corres.mtime < g.mtime
      · rw [if_pos hlt]
        rcases List.mem_cons.mp hf with rfl | hf'
        · simp only [List.mem_cons, true_or, true_iff]
          exact ⟨corres, hcor.1, hcor.2, hlt⟩
        · have hfne : f.name ≠ g.name := by
            intro heq
            exact hgnot (heq ▸ List.mem_map_of_mem FileNode.name hf')
          have hnodup' : ((replace_box_subfile g.name
              (BoxFile.mk corres.id g.name now) bfs).map BoxFile.name).Nodup := by
            rw [replace_box_subfile_map_name g.name _ rfl bfs]
            exact hbfs
          have := ih (replace_box_subfile g.name (BoxFile.mk corres.id g.name now) bfs)
            hgs hnodup' f hf'
          constructor
          · intro hmem
            rcases List.mem_cons.mp hmem with heq | hmem'
            · exact absurd heq hfne
            · exact (replace_exists_iff hfne rfl bfs f.mtime).mp (this.mp hmem')
          · intro hex
            exact List.mem_cons_of_mem _
              (this.mpr ((replace_exists_iff hfne rfl bfs f.mtime).mpr hex))
      · rw [if_neg hlt]
        rcases List.mem_cons.mp hf with rfl | hf'
        · constructor
          · intro hmem
            exact absurd (update_box_subfiles_loop_names_sub now gs bfs f.name hmem) hgnot
          · rintro ⟨bf, hbf, hname, hmt⟩
            have h2 := get_corresponding_box_subfile_of_mem hbfs hbf
            rw [hname, hc] at h2
            cases h2
            exact absurd hmt hlt
        · exact ih bfs hgs hbfs f hf'

/-- Claim C5: during the file update pass, a child file node whose
name is present among the remote subfiles has its remote contents
overwritten iff the local modified instant is strictly greater than
the remote one; equal or older local instants issue no update call. -/
theorem file_update_threshold (now : Int) (box_subfile_names : List String)
    (tree_files : List FileNode) (current : List BoxFile)
    (h1 : (tree_files.map FileNode.name).Nodup)
    (h2 : (current.map BoxFile.name).Nodup) :
    ∀ f ∈ tree_files,
      (f.name ∈ (update_box_subfiles now box_subfile_names tree_files current).2
        ↔ f.name ∈ box_subfile_names
          ∧ ∃ bf ∈ current, bf.name = f.name ∧ bf.mtime < f.mtime) := by
  intro f hf
  unfold update_box_subfiles
  have hsub : ((subfiles_in_treeobj_in_box box_subfile_names tree_files).map
      FileNode.name).Sublist (tree_files.map FileNode.name) :=
    List.Sublist.map FileNode.name (List.filter_sublist tree_files)
  have hnfil : ((subfiles_in_treeobj_in_box box_subfile_names tree_files).map
      FileNode.name).Nodup := h1.sublist hsub
  by_cases hs : f.name ∈ box_subfile_names
  · have hffil : f ∈ subfiles_in_treeobj_in_box box_subfile_names tree_files :=
      List.mem_filter.mpr ⟨hf, by simpa using hs⟩
    rw [update_box_subfiles_loop_mem now _ current hnfil h2 f hffil]
    exact ⟨fun h => ⟨hs, h⟩, fun h => h.2⟩
  · constructor
    · intro hmem
      have := update_box_subfiles_loop_names_sub now _ current f.name hmem
      rcases List.mem_map.mp this with ⟨g, hg, hgname⟩
      have := (List.mem_filter.mp hg).2
      rw [hgname] at this
      exact absurd (by simpa using this) hs
    · rintro ⟨hin, _⟩
      exact absurd hin hs

/-- Witness for C5: one local file newer than its remote copy is
updated. -/
theorem file_update_threshold_witness :
    (([FileNode.mk "i1.MRDC.1" "t1sag" 5 1].map FileNode.name).Nodup)
    ∧ (([BoxFile.mk "9" "i1.MRDC.1" 3].map BoxFile.name).Nodup)
    ∧ (FileNode.mk "i1.MRDC.1" "t1sag" 5 1) ∈ [FileNode.mk "i1.MRDC.1" "t1sag" 5 1]
    ∧ ((FileNode.mk "i1.MRDC.1" "t1sag" 5 1).name
        ∈ (update_box_subfiles 7 ["i1.MRDC.1"] [FileNode.mk "i1.MRDC.1" "t1sag" 5 1]
            [BoxFile.mk "9" "i1.MRDC.1" 3]).2
      ↔ (FileNode.mk "i1.MRDC.1" "t1sag" 5 1).name ∈ ["i1.MRDC.1"]
        ∧ ∃ bf ∈ [BoxFile.mk "9" "i1.MRDC.1" 3],
            bf.name = (FileNode.mk "i1.MRDC.1" "t1sag" 5 1).name
            ∧ bf.mtime < (FileNode.mk "i1.MRDC.1" "t1sag" 5 1).mtime) :=
  ⟨by simp, by simp, by simp,
    file_update_threshold 7 ["i1.MRDC.1"] [FileNode.mk "i1.MRDC.1" "t1sag" 5 1]
      [BoxFile.mk "9" "i1.MRDC.1" 3] (by simp) (by simp)
      (FileNode.mk "i1.MRDC.1" "t1sag" 5 1) (by simp)⟩

/-- Claim C1 (code bug): `sync_tree_object_items` as defined in
`dir_entry_node.py` takes no removal option — the removal pass runs
unconditionally.  Evaluated at the spec's deletion scenario (remote
subfolder `Old` absent from the desired tree) the extraneous folder is
deleted even though no removal flag is set anywhere; `main` in fact
passes `remove_items=` to this method, which has no such parameter. -/
theorem removal_pass_unconditional :
    (sync_tree_object_items false 100 (DirNode.mk "root" 0 [] [])
      (BoxFolder.mk "0" "root" [BoxFolder.mk "1" "Old" [] []] [])).2.deletes = 1
    ∧ (sync_tree_object_items false 100 (DirNode.mk "root" 0 [] [])
        (BoxFolder.mk "0" "root" [BoxFolder.mk "1" "Old" [] []] [])).1
      = BoxFolder.mk "0" "root" [] [] := by
  rw [sync_tree_object_items]
  constructor <;>
    simp [remove_box_subfolders, remove_box_subfiles, subfolders_in_box_not_in_treeobj,
      subfiles_in_box_not_in_treeobj, subfolders_in_treeobj_not_in_box,
      subfolders_in_treeobj_in_box, sync_new_subfolders, sync_old_subfolders,
      create_box_subfiles, subfiles_in_treeobj_not_in_box, Ops.add_def, Ops.zero]

/-- A study-level directory with 250 DICOM-named files, all matching
the file pattern. -/
def bigStudyDir : FSDir :=
  FSDir.mk "s00001" []
    ((List.range 250).map (fun k => FSFile.mk ("i" ++ toString k ++ ".MRDC.1") "t1sag" 0))

/-- Counterexample to claim C2: `bigStudyDir` has 250 entries, among
them the matching file `i0.MRDC.1`, yet the tree built for it has no
child nodes at all — the threshold check drops every entry, it is not
a mere diagnostic. -/
theorem study_dir_threshold_drops_entries :
    matchDicomName "i0.MRDC.1" = true
    ∧ "i0.MRDC.1" ∈ bigStudyDir.subfiles.map FSFile.name
    ∧ build_tree_from_node (fun _ => true) matchDicomName bigStudyDir 0
        = DirNode.mk "s00001" 0 [] [] := by
  refine ⟨by decide, ?_, ?_⟩
  · simp only [bigStudyDir, FSDir.subfiles, List.map_map, List.mem_map]
    refine ⟨0, by simp, by decide⟩
  · simp only [bigStudyDir]
    rw [build_tree_from_node]
    have h1 : matchStudyName "s00001" = true := by decide
    rw [if_neg (by simp [h1])]
    rw [if_neg (by simp)]

/-- Claim C2 as amended: for a study-level directory the children are
built (identically to the general case) only when the entry count is
below 250; at or above the threshold the node is built with no
children at all, omitting every matching entry at that level. -/
theorem study_dir_threshold_amended (rgxFolder rgxFile : String → Bool) (d : FSDir)
    (depth : Nat) (h : matchStudyName d.name = true) :
    (250 ≤ d.subdirs.length + d.subfiles.length →
       build_tree_from_node rgxFolder rgxFile d depth = DirNode.mk d.name depth [] [])
    ∧ (d.subdirs.length + d.subfiles.length < 250 →
       build_tree_from_node rgxFolder rgxFile d depth
         = DirNode.mk d.name depth
             (build_forest rgxFolder rgxFile
               (d.subdirs.filter (fun x => rgxFolder x.name)) (depth + 1))
             ((d.subfiles.filter (fun f => rgxFile f.name)).map
               (fun f => FileNode.mk f.name f.tag f.mtime (depth + 1)))) := by
  rcases d with ⟨name, subdirs, subfiles⟩
  simp only [FSDir.name] at h
  constructor
  · intro hge
    rw [build_tree_from_node, if_neg (by simp [h]), if_neg (by simp at hge ⊢; omega)]
    simp
  · intro hlt
    rw [build_tree_from_node, if_neg (by simp [h]), if_pos (by simpa using hlt)]
    simp

/-- Witness for the amended C2, at the concrete `bigStudyDir`. -/
theorem study_dir_threshold_amended_witness :
    matchStudyName bigStudyDir.name = true
    ∧ ((250 ≤ bigStudyDir.subdirs.length + bigStudyDir.subfiles.length →
         build_tree_from_node (fun _ => true) matchDicomName bigStudyDir 0
           = DirNode.mk bigStudyDir.name 0 [] [])
      ∧ (bigStudyDir.subdirs.length + bigStudyDir.subfiles.length < 250 →
         build_tree_from_node (fun _ => true) matchDicomName bigStudyDir 0
           = DirNode.mk bigStudyDir.name 0
               (build_forest (fun _ => true) matchDicomName
                 (bigStudyDir.subdirs.filter (fun x => (fun _ : String => true) x.name)) 1)
               ((bigStudyDir.subfiles.filter (fun f => matchDicomName f.name)).map
                 (fun f => FileNode.mk f.name f.tag f.mtime 1)))) :=
  ⟨by decide,
   study_dir_threshold_amended (fun _ => true) matchDicomName bigStudyDir 0 (by decide)⟩

/-- Counterexample to claim C3: on a folder node holding one file
whose name does not match the DICOM filename pattern, the search does
not complete normally with the file treated as non-matching — it
raises the `AttributeError` of the empty dataset's attribute access. -/
theorem search_raises_on_unrecognized_file :
    search_series_descrip (fun s => s == "t1sag")
        (DirNode.mk "dicom" 1 [] [FileNode.mk "notes.txt" "x" 0 2])
      = Except.error attributeErrorMsg := by
  rw [search_series_descrip]
  simp [search_series_descrip_folders, search_series_descrip_files,
    get_local_dicom_dataset, Dataset.seriesDescription,
    show matchDicomName "notes.txt" = false from by decide,
    bind, Except.bind, Except.instMonad, pure, Except.pure]

/-- Claim C3 as amended: reading the dataset of a file whose name does
not match the DICOM pattern returns the empty sentinel dataset without
raising, but the search's subsequent `SeriesDescription` access on
that empty dataset raises `AttributeError`, so the file aborts the
search with an error instead of being treated as non-matching. -/
theorem unrecognized_file_empty_dataset_raises (f : FileNode)
    (h : matchDicomName f.name = false) :
    get_local_dicom_dataset f = Dataset.empty
    ∧ (get_local_dicom_dataset f).seriesDescription = Except.error attributeErrorMsg
    ∧ ∀ rgx : String → Bool,
        search_series_descrip_files rgx [f] = Except.error attributeErrorMsg := by
  have h1 : get_local_dicom_dataset f = Dataset.empty := by
    unfold get_local_dicom_dataset
    rw [if_neg (by simp [h])]
  refine ⟨h1, by rw [h1]; rfl, fun rgx => ?_⟩
  rw [search_series_descrip_files, h1]
  rfl

/-- Witness for the amended C3 at the file `notes.txt`. -/
theorem unrecognized_file_empty_dataset_raises_witness :
    matchDicomName (FileNode.mk "notes.txt" "x" 0 2).name = false
    ∧ get_local_dicom_dataset (FileNode.mk "notes.txt" "x" 0 2) = Dataset.empty
    ∧ (get_local_dicom_dataset (FileNode.mk "notes.txt" "x" 0 2)).seriesDescription
        = Except.error attributeErrorMsg
    ∧ ∀ rgx : String → Bool,
        search_series_descrip_files rgx [FileNode.mk "notes.txt" "x" 0 2]
          = Except.error attributeErrorMsg :=
  ⟨by decide, unrecognized_file_empty_dataset_raises (FileNode.mk "notes.txt" "x" 0 2) (by decide)⟩

/-- Depth bookkeeping invariant: every child node's `depth` field is
its parent's plus one, recursively. -/
def depthsOk : DirNode → Bool
  | .mk _ d folders files =>
    files.all (fun f => f.depth == d + 1) &&
      folders.attach.all (fun c => (c.1.depth == d + 1) && depthsOk c.1)
termination_by t => sizeOf t
decreasing_by
  simp_wf
  have := List.sizeOf_lt_of_mem c.2
  omega

/-- Membership form of `depthsOk`. -/
theorem depthsOk_mk_iff (n : String) (d : Nat) (folders : List DirNode)
    (files : List FileNode) :
    depthsOk (DirNode.mk n d folders files) = true
      ↔ (∀ f ∈ files, f.depth = d + 1)
        ∧ (∀ c ∈ folders, c.depth = d + 1 ∧ depthsOk c = true) := by
  rw [depthsOk]
  simp [List.all_eq_true]

/-- Structural induction principle for `FSDir`. -/
def FSDir.inductionOn (motive : FSDir → Prop)
    (step : ∀ name subdirs subfiles,
      (∀ d ∈ subdirs, motive d) → motive (FSDir.mk name subdirs subfiles)) :
    ∀ d, motive d
  | .mk n ds fs =>
    step n ds fs (fun d hd => FSDir.inductionOn motive step d)
termination_by d => sizeOf d
decreasing_by
  simp_wf
  have := List.sizeOf_lt_of_mem hd
  omega

/-- The members of a built forest are exactly the trees built from the
listed directories. -/
theorem build_forest_mem (rgxFolder rgxFile : String → Bool) (ds : List FSDir) (k : Nat)
    (c : DirNode) :
    c ∈ build_forest rgxFolder rgxFile ds k
      ↔ ∃ d ∈ ds, c = build_tree_from_node rgxFolder rgxFile d k := by
  induction ds with
  | nil => rw [build_forest]; simp
  | cons d ds ih =>
    rw [build_forest]
    simp only [List.mem_cons, ih, List.mem_cons]
    constructor
    · rintro (rfl | ⟨d', hd', rfl⟩)
      · exact ⟨d, Or.inl rfl, rfl⟩
      · exact ⟨d', Or.inr hd', rfl⟩
    · rintro ⟨d', rfl | hd', rfl⟩
      · exact Or.inl rfl
      · exact Or.inr ⟨d', hd', rfl⟩

/-- The tree builder stamps the root with the requested depth. -/
theorem build_tree_from_node_depth (rgxFolder rgxFile : String → Bool) (d : FSDir) (k : Nat) :
    (build_tree_from_node rgxFolder rgxFile d k).depth = k := by
  rcases d with ⟨n, ds, fs⟩
  rw [build_tree_from_node]
  by_cases h : matchStudyName n
  · rw [if_neg (by simp [h])]
    by_cases h2 : ds.length + fs.length < 250
    · rw [if_pos h2]; rfl
    · rw [if_neg h2]; rfl
  · rw [if_pos (by simp [h])]; rfl

/-- The tree builder satisfies the depth invariant. -/
theorem build_tree_from_node_depthsOk (rgxFolder rgxFile : String → Bool) :
    ∀ (d : FSDir) (k : Nat),
      depthsOk (build_tree_from_node rgxFolder rgxFile d k) = true := by
  intro d
  induction d using FSDir.inductionOn with
  | step n ds fs ih =>
    intro k
    have hchildren : ∀ sub : List FSDir, (∀ x ∈ sub, x ∈ ds) →
        ∀ c ∈ build_forest rgxFolder rgxFile sub (k + 1),
          c.depth = k + 1 ∧ depthsOk c = true := by
      intro sub hsub c hc
      rcases (build_forest_mem rgxFolder rgxFile sub (k + 1) c).mp hc with ⟨x, hx, rfl⟩
      exact ⟨build_tree_from_node_depth rgxFolder rgxFile x (k + 1),
        ih x (hsub x hx) (k + 1)⟩
    have hfiles : ∀ (g : String → Bool),
        ∀ f ∈ (fs.filter (fun f => g f.name)).map
          (fun f => FileNode.mk f.name f.tag f.mtime (k + 1)), f.depth = k + 1 := by
      intro g f hf
      rcases List.mem_map.mp hf with ⟨x, _, rfl⟩
      rfl
    rw [build_tree_from_node]
    by_cases h : matchStudyName n
    · rw [if_neg (by simp [h])]
      by_cases h2 : ds.length + fs.length < 250
      · rw [if_pos h2, depthsOk_mk_iff]
        exact ⟨hfiles rgxFile,
          hchildren (ds.filter (fun x => rgxFolder x.name))
            (fun x hx => (List.mem_filter.mp hx).1)⟩
      · rw [if_neg h2, depthsOk_mk_iff]
        exact ⟨by simp, by simp⟩
    · rw [if_pos (by simp [h]), depthsOk_mk_iff]
      exact ⟨hfiles rgxFile,
        hchildren (ds.filter (fun x => rgxFolder x.name))
          (fun x hx => (List.mem_filter.mp hx).1)⟩

/-- Under the depth invariant, following a path adds its length to the
depth. -/
theorem followPath_depth :
    ∀ (p : List String) (t c : DirNode),
      depthsOk t = true → followPath t p = some c → c.depth = t.depth + p.length := by
  intro p
  induction p with
  | nil =>
    intro t c _ h
    rw [followPath] at h
    cases h
    simp
  | cons n ns ih =>
    intro t c ht h
    rw [followPath] at h
    rcases hf : t.folders.find? (fun x => x.name == n) with _ | c0
    · rw [hf] at h; cases h
    · rw [hf] at h
      have hc0 : c0 ∈ t.folders := List.mem_of_find?_eq_some hf
      rcases t with ⟨tn, td, tfs, tfls⟩
      have := ((depthsOk_mk_iff tn td tfs tfls).mp ht).2 c0 hc0
      have hrec := ih c0 c this.2 h
      rw [hrec, this.1]
      simp
      omega

/-- A successful prune of a node prunes its folder list and keeps
name, depth and files. -/
theorem prune_nodes_ok_shape (rgx : String → Bool) (n : String) (d : Nat)
    (fs : List DirNode) (fls : List FileNode) (t' : DirNode)
    (h : prune_nodes rgx (DirNode.mk n d fs fls) = .ok t') :
    ∃ fs', prune_nodes_folders rgx fs = .ok fs' ∧ t' = DirNode.mk n d fs' fls := by
  rw [prune_nodes] at h
  rcases hf : prune_nodes_folders rgx fs with e | fs'
  · rw [hf] at h
    simp [bind, Except.bind, Except.instMonad, pure, Except.pure] at h
  · rw [hf] at h
    simp only [bind, Except.bind, Except.instMonad, pure, Except.pure] at h
    cases h
    exact ⟨fs', rfl, rfl⟩

/-- Every folder kept by a successful prune loop is the successful
prune of one of the original folders. -/
theorem prune_nodes_folders_ok_mem (rgx : String → Bool) :
    ∀ (fs fs' : List DirNode), prune_nodes_folders rgx fs = .ok fs' →
      ∀ c' ∈ fs', ∃ c ∈ fs, prune_nodes rgx c = .ok c' := by
  intro fs
  induction fs with
  | nil =>
    intro fs' h c' hc'
    rw [prune_nodes_folders] at h
    simp only [pure, Except.pure] at h
    cases h
    cases hc'
  | cons c cs ih =>
    intro fs' h c' hc'
    rw [prune_nodes_folders] at h
    rcases hs : search_series_descrip rgx c with e | b
    · rw [hs] at h
      simp [bind, Except.bind, Except.instMonad, pure, Except.pure] at h
    · rw [hs] at h
      simp only [bind, Except.bind, Except.instMonad, pure, Except.pure] at h
      by_cases hb : b = true
      · rw [if_pos hb] at h
        rcases hp : prune_nodes rgx c with e | c1
        · rw [hp] at h; cases h
        · rw [hp] at h
          rcases hrest : prune_nodes_folders rgx cs with e | cs1
          · rw [hrest] at h; cases h
          · rw [hrest] at h
            cases h
            rcases List.mem_cons.mp hc' with rfl | hmem
            · exact ⟨c, List.mem_cons_self _ _, hp⟩
            · rcases ih cs1 hrest c' hmem with ⟨x, hx, hxp⟩
              exact ⟨x, List.mem_cons_of_mem _ hx, hxp⟩
      · rw [if_neg hb] at h
        rcases ih fs' h c' hc' with ⟨x, hx, hxp⟩
        exact ⟨x, List.mem_cons_of_mem _ hx, hxp⟩

/-- Pruning preserves the depth invariant (it only removes nodes). -/
theorem prune_preserves_depthsOk (rgx : String → Bool) :
    ∀ (t t' : DirNode), depthsOk t = true → prune_nodes rgx t = .ok t' →
      depthsOk t' = true := by
  intro t
  induction t using DirNode.inductionOn with
  | step n d fs fls ih =>
    intro t' ht hp
    rcases prune_nodes_ok_shape rgx n d fs fls t' hp with ⟨fs', hfs', rfl⟩
    rw [depthsOk_mk_iff] at ht ⊢
    refine ⟨ht.1, ?_⟩
    intro c' hc'
    rcases prune_nodes_folders_ok_mem rgx fs fs' hfs' c' hc' with ⟨c, hc, hcp⟩
    have hcprops := ht.2 c hc
    rcases c with ⟨cn, cd, cfs, cfls⟩
    rcases prune_nodes_ok_shape rgx cn cd cfs cfls c' hcp with ⟨cfs', _, rfl⟩
    exact ⟨by simpa using hcprops.1, ih _ hc _ hcprops.2 hcp⟩

/-- Claim C9: the tree builder stamps every created child with its
parent's depth plus one; consequently in a tree built at depth `k`
every node reached by a path sits at depth `k` plus the path length
(distance from the root, for `k = 0`), and pruning preserves the
invariant. -/
theorem depth_invariant :
    (∀ (rgxFolder rgxFile : String → Bool) (d : FSDir) (k : Nat),
       depthsOk (build_tree_from_node rgxFolder rgxFile d k) = true
       ∧ (build_tree_from_node rgxFolder rgxFile d k).depth = k)
    ∧ (∀ (t c : DirNode) (p : List String),
       depthsOk t = true → followPath t p = some c → c.depth = t.depth + p.length)
    ∧ (∀ (rgx : String → Bool) (t t' : DirNode),
       depthsOk t = true → prune_nodes rgx t = .ok t' → depthsOk t' = true) :=
  ⟨fun rgxFolder rgxFile d k =>
    ⟨build_tree_from_node_depthsOk rgxFolder rgxFile d k,
     build_tree_from_node_depth rgxFolder rgxFile d k⟩,
   fun t c p ht hp => followPath_depth p t c ht hp,
   fun rgx t t' ht hp => prune_preserves_depthsOk rgx t t' ht hp⟩

/-- Witness for C9 on a concrete two-level tree. -/
theorem depth_invariant_witness :
    depthsOk (DirNode.mk "root" 0
        [DirNode.mk "A" 1 [] [FileNode.mk "i1.MRDC.1" "t1sag" 0 2]] []) = true
    ∧ followPath (DirNode.mk "root" 0
        [DirNode.mk "A" 1 [] [FileNode.mk "i1.MRDC.1" "t1sag" 0 2]] []) ["A"]
      = some (DirNode.mk "A" 1 [] [FileNode.mk "i1.MRDC.1" "t1sag" 0 2])
    ∧ (DirNode.mk "A" 1 [] [FileNode.mk "i1.MRDC.1" "t1sag" 0 2]).depth
      = (DirNode.mk "root" 0
          [DirNode.mk "A" 1 [] [FileNode.mk "i1.MRDC.1" "t1sag" 0 2]] []).depth
        + (["A"] : List String).length := by
  have h1 : depthsOk (DirNode.mk "root" 0
      [DirNode.mk "A" 1 [] [FileNode.mk "i1.MRDC.1" "t1sag" 0 2]] []) = true := by
    rw [depthsOk_mk_iff]
    refine ⟨by simp, ?_⟩
    intro c hc
    rcases List.mem_singleton.mp hc with rfl
    rw [depthsOk_mk_iff]
    simp
  have h2 : followPath (DirNode.mk "root" 0
      [DirNode.mk "A" 1 [] [FileNode.mk "i1.MRDC.1" "t1sag" 0 2]] []) ["A"]
      = some (DirNode.mk "A" 1 [] [FileNode.mk "i1.MRDC.1" "t1sag" 0 2]) := by
    rw [followPath]
    simp [followPath]
  exact ⟨h1, h2, depth_invariant.2.1 _ _ ["A"] h1 h2⟩

/-- An `any` over an attached list is the `any` over the list. -/
theorem attach_any {α : Type} (l : List α) (p : α → Bool) :
    (l.attach.any fun c => p c.1) = l.any p := by
  rw [Bool.eq_iff_iff]
  simp [List.any_eq_true]

/-- Membership form of `existsMatchingFileBelow`. -/
theorem existsMatchingFileBelow_mk (rgx : String → Bool) (n : String) (d : Nat)
    (folders : List DirNode) (files : List FileNode) :
    existsMatchingFileBelow rgx (DirNode.mk n d folders files)
      = (files.any (fun f => rgx f.tag)
          || folders.any (fun c => existsMatchingFileBelow rgx c)) := by
  rw [existsMatchingFileBelow]
  congr 1
  exact attach_any folders (fun c => existsMatchingFileBelow rgx c)

/-- Membership form of `allRecognized`. -/
theorem allRecognized_mk_iff (n : String) (d : Nat) (folders : List DirNode)
    (files : List FileNode) :
    allRecognized (DirNode.mk n d folders files) = true
      ↔ (∀ f ∈ files, matchDicomName f.name = true)
        ∧ (∀ c ∈ folders, allRecognized c = true) := by
  rw [allRecognized]
  simp [List.all_eq_true]

/-- Membership form of `nodupSiblings`. -/
theorem nodupSiblings_mk_iff (n : String) (d : Nat) (folders : List DirNode)
    (files : List FileNode) :
    nodupSiblings (DirNode.mk n d folders files) = true
      ↔ (folders.map DirNode.name).Nodup ∧ (files.map FileNode.name).Nodup
        ∧ (∀ c ∈ folders, nodupSiblings c = true) := by
  rw [nodupSiblings]
  simp [List.all_eq_true, and_assoc]

/-- On recognized files, the file loop of the search computes the
boolean "some file's tag matches". -/
theorem search_files_ok (rgx : String → Bool) (files : List FileNode)
    (h : ∀ f ∈ files, matchDicomName f.name = true) :
    search_series_descrip_files rgx files = .ok (files.any (fun f => rgx f.tag)) := by
  induction files with
  | nil => rfl
  | cons f fs ih =>
    rw [search_series_descrip_files]
    have hf : get_local_dicom_dataset f = Dataset.withSeries f.tag := by
      unfold get_local_dicom_dataset
      rw [if_pos (h f (List.mem_cons_self _ _))]
    rw [hf]
    simp only [Dataset.seriesDescription, bind, Except.bind, Except.instMonad, pure, Except.pure,
      List.any_cons]
    by_cases hr : rgx f.tag
    · simp [hr]
    · simp only [hr, Bool.false_or, if_neg (by simp [hr] : ¬ (rgx f.tag = true))]
      exact ih (fun g hg => h g (List.mem_cons_of_mem _ hg))

/-- The folder loop of the search computes the boolean "some child
folder has a match below", given correct recursive searches. -/
theorem search_folders_ok (rgx : String → Bool) (folders : List DirNode)
    (h : ∀ c ∈ folders,
      search_series_descrip rgx c = .ok (existsMatchingFileBelow rgx c)) :
    search_series_descrip_folders rgx folders
      = .ok (folders.any (fun c => existsMatchingFileBelow rgx c)) := by
  induction folders with
  | nil => rw [search_series_descrip_folders]; rfl
  | cons c cs ih =>
    rw [search_series_descrip_folders, h c (List.mem_cons_self _ _)]
    simp only [bind, Except.bind, Except.instMonad, pure, Except.pure, List.any_cons]
    by_cases hb : existsMatchingFileBelow rgx c = true
    · simp [hb]
    · simp only [Bool.not_eq_true] at hb
      simp [hb]
      exact ih (fun x hx => h x (List.mem_cons_of_mem _ hx))

/-- On a tree of recognized files, the search succeeds and computes
exactly the spec-side predicate. -/
theorem search_ok (rgx : String → Bool) :
    ∀ t : DirNode, allRecognized t = true →
      search_series_descrip rgx t = .ok (existsMatchingFileBelow rgx t) := by
  intro t
  induction t using DirNode.inductionOn with
  | step n d fs fls ih =>
    intro ht
    rw [allRecognized_mk_iff] at ht
    rw [search_series_descrip,
      search_folders_ok rgx fs (fun c hc => ih c hc (ht.2 c hc)),
      existsMatchingFileBelow_mk]
    simp only [bind, Except.bind, Except.instMonad, pure, Except.pure]
    by_cases hb : fs.any (fun c => existsMatchingFileBelow rgx c) = true
    · simp [hb]
    · simp only [Bool.not_eq_true] at hb
      simp [hb]
      exact search_files_ok rgx fls ht.1

/-- The pure effect of a successful prune: keep exactly the child
folders with a match below, pruned recursively. -/
def prunePure (rgx : String → Bool) : DirNode → DirNode
  | .mk n d folders files =>
    DirNode.mk n d
      ((folders.filter (fun c => existsMatchingFileBelow rgx c)).attach.map
        (fun c => prunePure rgx c.1))
      files
termination_by t => sizeOf t
decreasing_by
  simp_wf
  have := List.sizeOf_lt_of_mem (List.mem_of_mem_filter c.2)
  omega

/-- Constructor form of `prunePure`. -/
theorem prunePure_mk (rgx : String → Bool) (n : String) (d : Nat)
    (folders : List DirNode) (files : List FileNode) :
    prunePure rgx (DirNode.mk n d folders files)
      = DirNode.mk n d
          ((folders.filter (fun c => existsMatchingFileBelow rgx c)).map (prunePure rgx))
          files := by
  rw [prunePure]
  congr 1
  exact List.attach_map_val _ (prunePure rgx)

/-- `prunePure` keeps the node's name. -/
theorem prunePure_name (rgx : String → Bool) (t : DirNode) :
    (prunePure rgx t).name = t.name := by
  rcases t with ⟨n, d, fs, fls⟩
  rw [prunePure_mk]
  rfl

/-- On a tree of recognized files the prune loop succeeds and keeps
exactly the child folders with a match below. -/
theorem prune_folders_ok (rgx : String → Bool) (fs : List DirNode)
    (h : ∀ c ∈ fs, allRecognized c = true ∧ prune_nodes rgx c = .ok (prunePure rgx c)) :
    prune_nodes_folders rgx fs
      = .ok ((fs.filter (fun c => existsMatchingFileBelow rgx c)).map (prunePure rgx)) := by
  induction fs with
  | nil => rw [prune_nodes_folders]; rfl
  | cons c cs ih =>
    rw [prune_nodes_folders, search_ok rgx c (h c (List.mem_cons_self _ _)).1]
    simp only [bind, Except.bind, Except.instMonad, pure, Except.pure]
    by_cases hb : existsMatchingFileBelow rgx c = true
    · rw [if_pos hb, (h c (List.mem_cons_self _ _)).2,
        ih (fun x hx => h x (List.mem_cons_of_mem _ hx))]
      rw [List.filter_cons, if_pos (by simpa using hb)]
      rfl
    · simp only [Bool.not_eq_true] at hb
      rw [if_neg (by simp [hb]), ih (fun x hx => h x (List.mem_cons_of_mem _ hx))]
      rw [List.filter_cons, if_neg (by simp [hb])]

/-- On a tree of recognized files the prune is the pure prune. -/
theorem prune_eq_pure (rgx : String → Bool) :
    ∀ t : DirNode, allRecognized t = true →
      prune_nodes rgx t = .ok (prunePure rgx t) := by
  intro t
  induction t using DirNode.inductionOn with
  | step n d fs fls ih =>
    intro ht
    rw [allRecognized_mk_iff] at ht
    rw [prune_nodes,
      prune_folders_ok rgx fs (fun c hc => ⟨ht.2 c hc, ih c hc (ht.2 c hc)⟩),
      prunePure_mk]
    rfl

/-- Pruning a subtree that has a match below keeps a match below. -/
theorem existsMatchingFileBelow_prunePure (rgx : String → Bool) :
    ∀ t : DirNode, existsMatchingFileBelow rgx t = true →
      existsMatchingFileBelow rgx (prunePure rgx t) = true := by
  intro t
  induction t using DirNode.inductionOn with
  | step n d fs fls ih =>
    intro ht
    rw [existsMatchingFileBelow_mk] at ht
    rw [prunePure_mk, existsMatchingFileBelow_mk]
    rcases Bool.or_eq_true_iff.mp ht with hfl | hfs
    · rw [hfl]
      rfl
    · rcases List.any_eq_true.mp hfs with ⟨c, hc, hcb⟩
      have : existsMatchingFileBelow rgx (prunePure rgx c) = true :=
        ih c hc hcb
      have hcmem : prunePure rgx c
          ∈ (fs.filter (fun x => existsMatchingFileBelow rgx x)).map (prunePure rgx) :=
        List.mem_map_of_mem _ (List.mem_filter.mpr ⟨hc, by simpa using hcb⟩)
      rw [Bool.or_eq_true_iff]
      exact Or.inr (List.any_eq_true.mpr ⟨prunePure rgx c, hcmem, this⟩)

/-- A match below a node reached by a path is a match below the
starting node. -/
theorem existsMatching_of_followPath (rgx : String → Bool) :
    ∀ (p : List String) (t c : DirNode), followPath t p = some c →
      existsMatchingFileBelow rgx c = true → existsMatchingFileBelow rgx t = true := by
  intro p
  induction p with
  | nil =>
    intro t c h hc
    rw [followPath] at h
    cases h
    exact hc
  | cons n ns ih =>
    intro t c h hc
    rw [followPath] at h
    rcases hf : t.folders.find? (fun x => x.name == n) with _ | c0
    · rw [hf] at h; cases h
    · rw [hf] at h
      have hc0 : c0 ∈ t.folders := List.mem_of_find?_eq_some hf
      have := ih c0 c h hc
      rcases t with ⟨tn, td, tfs, tfls⟩
      rw [existsMatchingFileBelow_mk, Bool.or_eq_true_iff]
      exact Or.inr (List.any_eq_true.mpr ⟨c0, hc0, this⟩)

/-- If the first child of a given name has a match below, it is also
the first child of that name in the pruned child list. -/
theorem find?_prunePure_kept (rgx : String → Bool) (n : String) :
    ∀ (fs : List DirNode) (c0 : DirNode),
      fs.find? (fun x => x.name == n) = some c0 →
      existsMatchingFileBelow rgx c0 = true →
      ((fs.filter (fun x => existsMatchingFileBelow rgx x)).map (prunePure rgx)).find?
          (fun x => x.name == n) = some (prunePure rgx c0) := by
  intro fs
  induction fs with
  | nil => intro c0 h; cases h
  | cons x xs ih =>
    intro c0 h hc0
    by_cases hx : (x.name == n) = true
    · simp only [List.find?_cons, hx] at h
      cases h
      have hpn : ((prunePure rgx x).name == n) = true := by
        rw [prunePure_name]; exact hx
      rw [List.filter_cons, if_pos (by simpa using hc0), List.map_cons]
      simp only [List.find?_cons, hpn]
    · have hx' : (x.name == n) = false := by simpa using hx
      simp only [List.find?_cons, hx'] at h
      rw [List.filter_cons]
      by_cases hxk : existsMatchingFileBelow rgx x = true
      · have hpn : ((prunePure rgx x).name == n) = false := by
          rw [prunePure_name]; exact hx'
        rw [if_pos (by simpa using hxk), List.map_cons]
        simp only [List.find?_cons, hpn]
        exact ih c0 h hc0
      · rw [if_neg (by simpa using hxk)]
        exact ih c0 h hc0

/-- If the unique child of a given name has no match below, the pruned
child list has no child of that name. -/
theorem find?_prunePure_dropped (rgx : String → Bool) (n : String)
    (fs : List DirNode) (hnd : (fs.map DirNode.name).Nodup) (c0 : DirNode)
    (h : fs.find? (fun x => x.name == n) = some c0)
    (hc0 : existsMatchingFileBelow rgx c0 = false) :
    ((fs.filter (fun x => existsMatchingFileBelow rgx x)).map (prunePure rgx)).find?
        (fun x => x.name == n) = none := by
  rw [List.find?_eq_none]
  intro y hy
  rcases List.mem_map.mp hy with ⟨x, hxf, rfl⟩
  have hx := List.mem_of_mem_filter hxf
  have hxk := (List.mem_filter.mp hxf).2
  rw [prunePure_name]
  simp only [beq_iff_eq]
  intro hxn
  have hc0n : c0.name = n := by simpa using List.find?_some h
  have : x = c0 := List.inj_on_of_nodup_map hnd hx (List.mem_of_find?_eq_some h)
    (by rw [hxn, hc0n])
  rw [this] at hxk
  rw [hc0] at hxk
  cases hxk

/-- If no child has a given name, neither has the pruned child list. -/
theorem find?_prunePure_absent (rgx : String → Bool) (n : String) (fs : List DirNode)
    (h : fs.find? (fun x => x.name == n) = none) :
    ((fs.filter (fun x => existsMatchingFileBelow rgx x)).map (prunePure rgx)).find?
        (fun x => x.name == n) = none := by
  rw [List.find?_eq_none] at h ⊢
  intro y hy
  rcases List.mem_map.mp hy with ⟨x, hxf, rfl⟩
  rw [prunePure_name]
  exact h x (List.mem_of_mem_filter hxf)

/-- Unfolding: the empty path resolves to the node itself. -/
theorem followPath_nil (t : DirNode) : followPath t [] = some t := by
  rw [followPath]

/-- Unfolding: path resolution when the head name resolves. -/
theorem followPath_cons_some {t : DirNode} {n : String} {c0 : DirNode}
    (h : t.folders.find? (fun c => c.name == n) = some c0) (ns : List String) :
    followPath t (n :: ns) = followPath c0 ns := by
  rw [followPath, h]

/-- Unfolding: path resolution when the head name does not resolve. -/
theorem followPath_cons_none {t : DirNode} {n : String}
    (h : t.folders.find? (fun c => c.name == n) = none) (ns : List String) :
    followPath t (n :: ns) = none := by
  rw [followPath, h]

/-- Path resolution in a pruned tree: a nonempty path resolves after
pruning exactly to the pruned version of a node that resolved before
pruning and had a match below. -/
theorem followPath_prunePure (rgx : String → Bool) :
    ∀ (ns : List String) (n : String) (t : DirNode), nodupSiblings t = true →
      (∀ c', followPath (prunePure rgx t) (n :: ns) = some c' →
        ∃ c, followPath t (n :: ns) = some c ∧ c' = prunePure rgx c
          ∧ existsMatchingFileBelow rgx c = true)
      ∧ (∀ c, followPath t (n :: ns) = some c → existsMatchingFileBelow rgx c = true →
        followPath (prunePure rgx t) (n :: ns) = some (prunePure rgx c)) := by
  intro ns
  induction ns with
  | nil =>
    intro n t hnd
    rcases t with ⟨tn, td, tfs, tfls⟩
    rw [nodupSiblings_mk_iff] at hnd
    have hpf : (prunePure rgx (DirNode.mk tn td tfs tfls)).folders
        = (tfs.filter (fun x => existsMatchingFileBelow rgx x)).map (prunePure rgx) := by
      rw [prunePure_mk]
      rfl
    constructor
    · intro c' h
      rcases hf : tfs.find? (fun x => x.name == n) with _ | c0
      · have habs : (prunePure rgx (DirNode.mk tn td tfs tfls)).folders.find?
            (fun c => c.name == n) = none := by
          rw [hpf]
          exact find?_prunePure_absent rgx n tfs hf
        rw [followPath_cons_none habs] at h
        cases h
      · by_cases hc0 : existsMatchingFileBelow rgx c0 = true
        · have hkept : (prunePure rgx (DirNode.mk tn td tfs tfls)).folders.find?
              (fun c => c.name == n) = some (prunePure rgx c0) := by
            rw [hpf]
            exact find?_prunePure_kept rgx n tfs c0 hf hc0
          rw [followPath_cons_some hkept [], followPath_nil] at h
          cases h
          refine ⟨c0, ?_, rfl, hc0⟩
          rw [followPath_cons_some hf [], followPath_nil]
        · have hdrop : (prunePure rgx (DirNode.mk tn td tfs tfls)).folders.find?
              (fun c => c.name == n) = none := by
            rw [hpf]
            exact find?_prunePure_dropped rgx n tfs hnd.1 c0 hf (by simpa using hc0)
          rw [followPath_cons_none hdrop] at h
          cases h
    · intro c h hc
      rcases hf : tfs.find? (fun x => x.name == n) with _ | c0
      · rw [followPath_cons_none hf] at h
        cases h
      · rw [followPath_cons_some hf [], followPath_nil] at h
        cases h
        have hkept : (prunePure rgx (DirNode.mk tn td tfs tfls)).folders.find?
            (fun x => x.name == n) = some (prunePure rgx c) := by
          rw [hpf]
          exact find?_prunePure_kept rgx n tfs c hf hc
        rw [followPath_cons_some hkept [], followPath_nil]
  | cons n2 ns2 ih =>
    intro n t hnd
    rcases t with ⟨tn, td, tfs, tfls⟩
    rw [nodupSiblings_mk_iff] at hnd
    have hpf : (prunePure rgx (DirNode.mk tn td tfs tfls)).folders
        = (tfs.filter (fun x => existsMatchingFileBelow rgx x)).map (prunePure rgx) := by
      rw [prunePure_mk]
      rfl
    constructor
    · intro c' h
      rcases hf : tfs.find? (fun x => x.name == n) with _ | c0
      · have habs : (prunePure rgx (DirNode.mk tn td tfs tfls)).folders.find?
            (fun c => c.name == n) = none := by
          rw [hpf]
          exact find?_prunePure_absent rgx n tfs hf
        rw [followPath_cons_none habs] at h
        cases h
      · by_cases hc0 : existsMatchingFileBelow rgx c0 = true
        · have hkept : (prunePure rgx (DirNode.mk tn td tfs tfls)).folders.find?
              (fun c => c.name == n) = some (prunePure rgx c0) := by
            rw [hpf]
            exact find?_prunePure_kept rgx n tfs c0 hf hc0
          rw [followPath_cons_some hkept (n2 :: ns2)] at h
          have hc0mem : c0 ∈ tfs := List.mem_of_find?_eq_some hf
          rcases (ih n2 c0 (hnd.2.2 c0 hc0mem)).1 c' h with ⟨c, hcp, rfl, hcm⟩
          refine ⟨c, ?_, rfl, hcm⟩
          rw [followPath_cons_some hf (n2 :: ns2)]
          exact hcp
        · have hdrop : (prunePure rgx (DirNode.mk tn td tfs tfls)).folders.find?
              (fun c => c.name == n) = none := by
            rw [hpf]
            exact find?_prunePure_dropped rgx n tfs hnd.1 c0 hf (by simpa using hc0)
          rw [followPath_cons_none hdrop] at h
          cases h
    · intro c h hc
      rcases hf : tfs.find? (fun x => x.name == n) with _ | c0
      · rw [followPath_cons_none hf] at h
        cases h
      · rw [followPath_cons_some hf (n2 :: ns2)] at h
        have hc0mem : c0 ∈ tfs := List.mem_of_find?_eq_some hf
        have hc0 : existsMatchingFileBelow rgx c0 = true :=
          existsMatching_of_followPath rgx (n2 :: ns2) c0 c h hc
        have hkept : (prunePure rgx (DirNode.mk tn td tfs tfls)).folders.find?
            (fun x => x.name == n) = some (prunePure rgx c0) := by
          rw [hpf]
          exact find?_prunePure_kept rgx n tfs c0 hf hc0
        rw [followPath_cons_some hkept (n2 :: ns2)]
        exact (ih n2 c0 (hnd.2.2 c0 hc0mem)).2 c h hc

/-- Claim C4: on a tree whose files are all recognized datasets (so
the tag reads succeed) and whose sibling folder names are unique, the
prune succeeds; a folder strictly below the root survives pruning iff
some file at or below it has a matching tag, and every surviving
folder has a matching file at or below it. -/
theorem pruning_correctness (rgx : String → Bool) (t : DirNode)
    (h1 : allRecognized t = true) (h2 : nodupSiblings t = true) :
    ∃ t', prune_nodes rgx t = .ok t'
      ∧ (∀ (n : String) (ns : List String),
          ((followPath t' (n :: ns)).isSome
            ↔ ∃ c, followPath t (n :: ns) = some c
                ∧ existsMatchingFileBelow rgx c = true))
      ∧ (∀ (n : String) (ns : List String) (c' : DirNode),
          followPath t' (n :: ns) = some c' → existsMatchingFileBelow rgx c' = true) := by
  refine ⟨prunePure rgx t, prune_eq_pure rgx t h1, ?_, ?_⟩
  · intro n ns
    constructor
    · intro hs
      rcases Option.isSome_iff_exists.mp hs with ⟨c', hc'⟩
      rcases (followPath_prunePure rgx ns n t h2).1 c' hc' with ⟨c, hcp, _, hcm⟩
      exact ⟨c, hcp, hcm⟩
    · rintro ⟨c, hcp, hcm⟩
      rw [(followPath_prunePure rgx ns n t h2).2 c hcp hcm]
      rfl
  · intro n ns c' hc'
    rcases (followPath_prunePure rgx ns n t h2).1 c' hc' with ⟨c, _, rfl, hcm⟩
    exact existsMatchingFileBelow_prunePure rgx c hcm

/-- Witness for C4, on a tree with one matching and one non-matching
branch. -/
theorem pruning_correctness_witness :
    allRecognized (DirNode.mk "root" 0
        [DirNode.mk "A" 1 [] [FileNode.mk "i1.MRDC.1" "t1sag_208" 0 2],
         DirNode.mk "B" 1 [] [FileNode.mk "i2.MRDC.2" "loc" 0 2]] []) = true
    ∧ nodupSiblings (DirNode.mk "root" 0
        [DirNode.mk "A" 1 [] [FileNode.mk "i1.MRDC.1" "t1sag_208" 0 2],
         DirNode.mk "B" 1 [] [FileNode.mk "i2.MRDC.2" "loc" 0 2]] []) = true
    ∧ ∃ t', prune_nodes (fun s => s == "t1sag_208")
          (DirNode.mk "root" 0
            [DirNode.mk "A" 1 [] [FileNode.mk "i1.MRDC.1" "t1sag_208" 0 2],
             DirNode.mk "B" 1 [] [FileNode.mk "i2.MRDC.2" "loc" 0 2]] []) = .ok t'
        ∧ (∀ (n : String) (ns : List String),
            ((followPath t' (n :: ns)).isSome
              ↔ ∃ c, followPath (DirNode.mk "root" 0
                    [DirNode.mk "A" 1 [] [FileNode.mk "i1.MRDC.1" "t1sag_208" 0 2],
                     DirNode.mk "B" 1 [] [FileNode.mk "i2.MRDC.2" "loc" 0 2]] [])
                    (n :: ns) = some c
                  ∧ existsMatchingFileBelow (fun s => s == "t1sag_208") c = true))
        ∧ (∀ (n : String) (ns : List String) (c' : DirNode),
            followPath t' (n :: ns) = some c'
              → existsMatchingFileBelow (fun s => s == "t1sag_208") c' = true) := by
  have ha : allRecognized (DirNode.mk "root" 0
      [DirNode.mk "A" 1 [] [FileNode.mk "i1.MRDC.1" "t1sag_208" 0 2],
       DirNode.mk "B" 1 [] [FileNode.mk "i2.MRDC.2" "loc" 0 2]] []) = true := by
    rw [allRecognized_mk_iff]
    refine ⟨by simp, ?_⟩
    intro c hc
    rcases List.mem_cons.mp hc with rfl | hc2
    · rw [allRecognized_mk_iff]
      exact ⟨by intro f hf; rcases List.mem_singleton.mp hf with rfl; decide, by simp⟩
    · rcases List.mem_singleton.mp hc2 with rfl
      rw [allRecognized_mk_iff]
      exact ⟨by intro f hf; rcases List.mem_singleton.mp hf with rfl; decide, by simp⟩
  have hn : nodupSiblings (DirNode.mk "root" 0
      [DirNode.mk "A" 1 [] [FileNode.mk "i1.MRDC.1" "t1sag_208" 0 2],
       DirNode.mk "B" 1 [] [FileNode.mk "i2.MRDC.2" "loc" 0 2]] []) = true := by
    rw [nodupSiblings_mk_iff]
    refine ⟨by simp, by simp, ?_⟩
    intro c hc
    rcases List.mem_cons.mp hc with rfl | hc2
    · rw [nodupSiblings_mk_iff]
      exact ⟨by simp, by simp, by simp⟩
    · rcases List.mem_singleton.mp hc2 with rfl
      rw [nodupSiblings_mk_iff]
      exact ⟨by simp, by simp, by simp⟩
  exact ⟨ha, hn, pruning_correctness (fun s => s == "t1sag_208") _ ha hn⟩

/-- Sibling names are unique at every level of a desired-state tree
(filesystem listings cannot repeat a name). -/
def treeWF : DirNode → Bool
  | .mk _ _ folders files =>
    decide (folders.map DirNode.name).Nodup &&
      decide (files.map FileNode.name).Nodup &&
      folders.attach.all (fun c => treeWF c.1)
termination_by t => sizeOf t
decreasing_by
  simp_wf
  have := List.sizeOf_lt_of_mem c.2
  omega

/-- Membership form of `treeWF`. -/
theorem treeWF_mk_iff (n : String) (d : Nat) (folders : List DirNode)
    (files : List FileNode) :
    treeWF (DirNode.mk n d folders files) = true
      ↔ (folders.map DirNode.name).Nodup ∧ (files.map FileNode.name).Nodup
        ∧ (∀ c ∈ folders, treeWF c = true) := by
  rw [treeWF]
  simp [List.all_eq_true, and_assoc]

/-- Child names are unique at every level of the remote tree (Box
enforces unique names within a folder). -/
def remoteWF : BoxFolder → Bool
  | .mk _ _ folders files =>
    decide (folders.map BoxFolder.name).Nodup &&
      decide (files.map BoxFile.name).Nodup &&
      folders.attach.all (fun c => remoteWF c.1)
termination_by b => sizeOf b
decreasing_by
  simp_wf
  have := List.sizeOf_lt_of_mem c.2
  omega

/-- Membership form of `remoteWF`. -/
theorem remoteWF_mk_iff (i n : String) (folders : List BoxFolder)
    (files : List BoxFile) :
    remoteWF (BoxFolder.mk i n folders files) = true
      ↔ (folders.map BoxFolder.name).Nodup ∧ (files.map BoxFile.name).Nodup
        ∧ (∀ c ∈ folders, remoteWF c = true) := by
  rw [remoteWF]
  simp [List.all_eq_true, and_assoc]

/-- Every file in the tree was last modified no later than `now` (the
sync run happens after the files were written). -/
def mtimesLE (now : Int) : DirNode → Bool
  | .mk _ _ folders files =>
    files.all (fun f => f.mtime ≤ now) &&
      folders.attach.all (fun c => mtimesLE now c.1)
termination_by t => sizeOf t
decreasing_by
  simp_wf
  have := List.sizeOf_lt_of_mem c.2
  omega

/-- Membership form of `mtimesLE`. -/
theorem mtimesLE_mk_iff (now : Int) (n : String) (d : Nat) (folders : List DirNode)
    (files : List FileNode) :
    mtimesLE now (DirNode.mk n d folders files) = true
      ↔ (∀ f ∈ files, f.mtime ≤ now) ∧ (∀ c ∈ folders, mtimesLE now c = true) := by
  rw [mtimesLE]
  simp [List.all_eq_true]

/-- Structural induction principle for the nested inductive
`BoxFolder`. -/
def BoxFolder.inductionOn (motive : BoxFolder → Prop)
    (step : ∀ i name folders files,
      (∀ c ∈ folders, motive c) → motive (BoxFolder.mk i name folders files)) :
    ∀ b, motive b
  | .mk i n fs fls =>
    step i n fs fls (fun c hc => BoxFolder.inductionOn motive step c)
termination_by b => sizeOf b
decreasing_by
  simp_wf
  have := List.sizeOf_lt_of_mem hc
  omega

/-- Under unique names, the name-equality filter of a folder listing
containing `bf` is exactly `[bf]`. -/
theorem filter_name_eq_singleton_folder {l : List BoxFolder}
    (h : (l.map BoxFolder.name).Nodup) {bf : BoxFolder} (hm : bf ∈ l) :
    l.filter (fun x => bf.name == x.name) = [bf] := by
  induction l with
  | nil => cases hm
  | cons x xs ih =>
    simp only [List.map_cons, List.nodup_cons, List.mem_map] at h
    rcases List.mem_cons.mp hm with rfl | hmem
    · have : xs.filter (fun x => bf.name == x.name) = [] := by
        rw [List.filter_eq_nil_iff]
        intro y hy
        simp only [beq_iff_eq]
        exact fun hn => h.1 ⟨y, hy, hn.symm⟩
      simp [List.filter_cons, this]
    · have hne : (bf.name == x.name) = false := by
        simp only [beq_eq_false_iff_ne, ne_eq]
        intro hn
        exact h.1 ⟨bf, hmem, hn⟩
      rw [List.filter_cons]
      simp only [hne, Bool.false_eq_true, if_false]
      exact ih h.2 hmem

/-- Under unique names, the subfolder lookup of a member's name
returns that member. -/
theorem get_corresponding_box_subfolder_of_mem {l : List BoxFolder}
    (h : (l.map BoxFolder.name).Nodup) {bf : BoxFolder} (hm : bf ∈ l) :
    get_corresponding_box_subfolder (LocalEntry.mk bf.name true false) l = some bf := by
  rw [get_corresponding_box_subfolder_eq_getLast _ rfl]
  simp only
  rw [filter_name_eq_singleton_folder h hm]
  rfl

/-- A successful subfolder lookup returns a listed entry of the
looked-up name. -/
theorem get_corresponding_box_subfolder_some {e : LocalEntry} (he : e.isDir = true)
    {l : List BoxFolder} {c : BoxFolder}
    (h : get_corresponding_box_subfolder e l = some c) : c ∈ l ∧ c.name = e.name := by
  rw [get_corresponding_box_subfolder_eq_getLast e he] at h
  have hmem := List.mem_of_mem_getLast? h
  have := List.mem_filter.mp hmem
  refine ⟨this.1, ?_⟩
  have := this.2
  simp only [beq_iff_eq] at this
  exact this.symm

/-- The subfolder lookup returns `none` when no listed name matches. -/
theorem get_corresponding_box_subfolder_eq_none {l : List BoxFolder} {n : String}
    (h : ∀ bf ∈ l, bf.name ≠ n) :
    get_corresponding_box_subfolder (LocalEntry.mk n true false) l = none := by
  rw [get_corresponding_box_subfolder_eq_getLast _ rfl]
  simp only
  have : l.filter (fun x => n == x.name) = [] := by
    rw [List.filter_eq_nil_iff]
    intro y hy
    simp only [beq_iff_eq]
    exact fun hn => h y hy hn.symm
  rw [this]
  rfl

/-- Replacing a subfolder by name preserves the listing's name
sequence. -/
theorem replace_box_subfolder_map_name (n : String) (nf : BoxFolder) (hn : nf.name = n)
    (l : List BoxFolder) :
    (replace_box_subfolder n nf l).map BoxFolder.name = l.map BoxFolder.name := by
  unfold replace_box_subfolder
  rw [List.map_map]
  apply List.map_congr_left
  intro x _
  by_cases hx : (x.name == n) = true
  · simp only [Function.comp_apply, hx, if_pos]
    simp only [beq_iff_eq] at hx
    rw [hn, hx]
  · simp only [Function.comp_apply, hx]
    rw [if_neg (by simp [hx])]

/-- Replacing one subfolder name leaves entries of other names in
place. -/
theorem replace_box_subfolder_mem_of_ne {l : List BoxFolder} {bf : BoxFolder}
    (hm : bf ∈ l) {n : String} (hne : bf.name ≠ n) (nf : BoxFolder) :
    bf ∈ replace_box_subfolder n nf l := by
  unfold replace_box_subfolder
  have : bf = if bf.name == n then nf else bf := by simp [hne]
  exact this ▸ List.mem_map_of_mem (fun x => if x.name == n then nf else x) hm

/-- Looking up one name is unaffected by replacing another. -/
theorem get_corresponding_box_subfolder_replace_ne {n m : String} (hne : n ≠ m)
    {nf : BoxFolder} (hnf : nf.name = m) (l : List BoxFolder) :
    get_corresponding_box_subfolder (LocalEntry.mk n true false)
        (replace_box_subfolder m nf l)
      = get_corresponding_box_subfolder (LocalEntry.mk n true false) l := by
  rw [get_corresponding_box_subfolder_eq_getLast _ rfl,
    get_corresponding_box_subfolder_eq_getLast _ rfl]
  congr 1
  unfold replace_box_subfolder
  induction l with
  | nil => rfl
  | cons x xs ih =>
    rw [List.map_cons, List.filter_cons, List.filter_cons]
    by_cases hx : (x.name == m) = true
    · simp only [hx, if_pos]
      have h1 : (n == nf.name) = false := by
        rw [hnf]
        simpa using hne
      have h2 : (n == x.name) = false := by
        simp only [beq_iff_eq] at hx
        rw [hx]
        simpa using hne
      simp only [h1, h2, Bool.false_eq_true, if_false]
      exact ih
    · simp only [hx, Bool.false_eq_true, if_false]
      by_cases h2 : (n == x.name) = true
      · simp only [h2, if_pos]
        rw [ih]
      · simp only [h2, Bool.false_eq_true, if_false]
        exact ih

/-- Replacing an existing name makes the lookup return the
replacement. -/
theorem get_corresponding_box_subfolder_replace_self {l : List BoxFolder} {n : String}
    (hex : ∃ bf ∈ l, bf.name = n) {nf : BoxFolder} (hnf : nf.name = n)
    (hnd : (l.map BoxFolder.name).Nodup) :
    get_corresponding_box_subfolder (LocalEntry.mk n true false)
        (replace_box_subfolder n nf l) = some nf := by
  have hmem : nf ∈ replace_box_subfolder n nf l := by
    rcases hex with ⟨bf, hbf, hbfn⟩
    unfold replace_box_subfolder
    have hbeq : (bf.name == n) = true := by simpa using hbfn
    have h := List.mem_map_of_mem (fun x : BoxFolder => if x.name == n then nf else x) hbf
    have hstep : (fun x : BoxFolder => if x.name == n then nf else x) bf = nf := by
      show (if bf.name == n then nf else bf) = nf
      rw [if_pos hbeq]
    rw [hstep] at h
    exact h
  have hnd' : ((replace_box_subfolder n nf l).map BoxFolder.name).Nodup := by
    rw [replace_box_subfolder_map_name n nf hnf l]
    exact hnd
  have := get_corresponding_box_subfolder_of_mem hnd' hmem
  rw [hnf] at this
  exact this

/-- Unfolding: the created-subfolders loop on the empty list. -/
theorem sync_new_subfolders_nil (uf : Bool) (now : Int) (bfs : List BoxFolder) :
    sync_new_subfolders uf now [] bfs = (bfs, Ops.zero) := by
  rw [sync_new_subfolders]

/-- Unfolding: the created-subfolders loop creates an empty subfolder,
recurses into it depth-first, and appends it to the listing. -/
theorem sync_new_subfolders_cons (uf : Bool) (now : Int) (c : DirNode)
    (cs : List DirNode) (bfs : List BoxFolder) :
    sync_new_subfolders uf now (c :: cs) bfs
      = ((sync_new_subfolders uf now cs
            (bfs ++ [(sync_tree_object_items uf now c (BoxFolder.mk c.name c.name [] [])).1])).1,
         Ops.mk 0 1 0 + (sync_tree_object_items uf now c (BoxFolder.mk c.name c.name [] [])).2
           + (sync_new_subfolders uf now cs
               (bfs ++ [(sync_tree_object_items uf now c
                   (BoxFolder.mk c.name c.name [] [])).1])).2) := by
  rw [sync_new_subfolders]

/-- Unfolding: the existing-subfolders loop on the empty list. -/
theorem sync_old_subfolders_nil (uf : Bool) (now : Int) (bfs : List BoxFolder) :
    sync_old_subfolders uf now [] bfs = (bfs, Ops.zero) := by
  rw [sync_old_subfolders]

/-- Unfolding: the existing-subfolders loop resolves the subfolder by
name, recurses into it, and continues on the listing with that entry
replaced. -/
theorem sync_old_subfolders_cons_some (uf : Bool) (now : Int) (c : DirNode)
    (cs : List DirNode) (bfs : List BoxFolder) (cb : BoxFolder)
    (hc : get_corresponding_box_subfolder (LocalEntry.mk c.name true false) bfs = some cb) :
    sync_old_subfolders uf now (c :: cs) bfs
      = ((sync_old_subfolders uf now cs
            (replace_box_subfolder c.name (sync_tree_object_items uf now c cb).1 bfs)).1,
         (sync_tree_object_items uf now c cb).2
           + (sync_old_subfolders uf now cs
               (replace_box_subfolder c.name
                 (sync_tree_object_items uf now c cb).1 bfs)).2) := by
  rw [sync_old_subfolders, hc]

/-- Unfolding: the existing-subfolders loop when the lookup fails. -/
theorem sync_old_subfolders_cons_none (uf : Bool) (now : Int) (c : DirNode)
    (cs : List DirNode) (bfs : List BoxFolder)
    (hc : get_corresponding_box_subfolder (LocalEntry.mk c.name true false) bfs = none) :
    sync_old_subfolders uf now (c :: cs) bfs = sync_old_subfolders uf now cs bfs := by
  rw [sync_old_subfolders, hc]

/-- Syncing never renames or re-identifies the target Box folder. -/
theorem sync_tree_object_items_id_name (uf : Bool) (now : Int) (t : DirNode)
    (b : BoxFolder) :
    (sync_tree_object_items uf now t b).1.id = b.id
    ∧ (sync_tree_object_items uf now t b).1.name = b.name := by
  rcases t with ⟨tn, td, tfolders, tfiles⟩
  rcases b with ⟨bid, bname, bfolders, bfiles⟩
  rw [sync_tree_object_items]
  exact ⟨rfl, rfl⟩

/-- The state in which a second sync run has nothing to do: every
remote child's name exists in the tree, names are unique, every tree
folder resolves to a remote subfolder in the same state, and (when
updates are on) every tree file's remote copy is at least as new. -/
def SyncedInv (uf : Bool) : DirNode → BoxFolder → Prop
  | .mk _ _ tfolders tfiles, b =>
    (∀ bf ∈ b.folders, bf.name ∈ tfolders.map DirNode.name)
    ∧ (∀ bfl ∈ b.files, bfl.name ∈ tfiles.map FileNode.name)
    ∧ (b.folders.map BoxFolder.name).Nodup
    ∧ (b.files.map BoxFile.name).Nodup
    ∧ (∀ c ∈ tfolders, ∃ cb,
        get_corresponding_box_subfolder (LocalEntry.mk c.name true false) b.folders = some cb
        ∧ SyncedInv uf c cb)
    ∧ (∀ f ∈ tfiles, ∃ bf ∈ b.files, bf.name = f.name ∧ (uf = true → f.mtime ≤ bf.mtime))
termination_by t _ => sizeOf t
decreasing_by
  rename_i hmem
  simp_wf
  have := List.sizeOf_lt_of_mem hmem
  omega

/-- Constructor form of `SyncedInv`. -/
theorem SyncedInv_mk_iff (uf : Bool) (tn : String) (td : Nat)
    (tfolders : List DirNode) (tfiles : List FileNode) (b : BoxFolder) :
    SyncedInv uf (DirNode.mk tn td tfolders tfiles) b
      ↔ (∀ bf ∈ b.folders, bf.name ∈ tfolders.map DirNode.name)
        ∧ (∀ bfl ∈ b.files, bfl.name ∈ tfiles.map FileNode.name)
        ∧ (b.folders.map BoxFolder.name).Nodup
        ∧ (b.files.map BoxFile.name).Nodup
        ∧ (∀ c ∈ tfolders, ∃ cb,
            get_corresponding_box_subfolder (LocalEntry.mk c.name true false) b.folders
              = some cb ∧ SyncedInv uf c cb)
        ∧ (∀ f ∈ tfiles, ∃ bf ∈ b.files, bf.name = f.name
            ∧ (uf = true → f.mtime ≤ bf.mtime)) := by
  rw [SyncedInv]

/-- A successful lookup means the name is listed. -/
theorem name_mem_of_get_corresponding {n : String} {l : List BoxFolder} {cb : BoxFolder}
    (h : get_corresponding_box_subfolder (LocalEntry.mk n true false) l = some cb) :
    n ∈ l.map BoxFolder.name := by
  have h2 := get_corresponding_box_subfolder_some rfl h
  have h3 : cb.name = n := h2.2
  exact h3 ▸ List.mem_map_of_mem BoxFolder.name h2.1

/-- Replacing the looked-up entry by itself changes nothing. -/
theorem replace_box_subfolder_self_id {l : List BoxFolder}
    (hnd : (l.map BoxFolder.name).Nodup) {n : String} {cb : BoxFolder}
    (h : get_corresponding_box_subfolder (LocalEntry.mk n true false) l = some cb) :
    replace_box_subfolder n cb l = l := by
  unfold replace_box_subfolder
  have : ∀ x ∈ l, (if x.name == n then cb else x) = x := by
    intro x hx
    by_cases hxn : (x.name == n) = true
    · rw [if_pos hxn]
      have hx2 := get_corresponding_box_subfolder_of_mem hnd hx
      simp only [beq_iff_eq] at hxn
      rw [hxn, h] at hx2
      exact (Option.some_injective _ hx2)
    · rw [if_neg hxn]
  calc l.map (fun x => if x.name == n then cb else x) = l.map id := List.map_congr_left this
    _ = l := List.map_id l

/-- The existing-subfolders loop does nothing when every child is
already synced in place. -/
theorem sync_old_subfolders_no_ops (uf : Bool) (now : Int) :
    ∀ (cs : List DirNode) (bfs : List BoxFolder),
      (bfs.map BoxFolder.name).Nodup →
      (∀ c ∈ cs, ∃ cb,
        get_corresponding_box_subfolder (LocalEntry.mk c.name true false) bfs = some cb
          ∧ sync_tree_object_items uf now c cb = (cb, Ops.zero)) →
      sync_old_subfolders uf now cs bfs = (bfs, Ops.zero) := by
  intro cs
  induction cs with
  | nil => intro bfs _ _; exact sync_old_subfolders_nil uf now bfs
  | cons c cs ih =>
    intro bfs hnd h
    rcases h c (List.mem_cons_self _ _) with ⟨cb, hcb, hsync⟩
    rw [sync_old_subfolders_cons_some uf now c cs bfs cb hcb, hsync]
    simp only
    rw [replace_box_subfolder_self_id hnd hcb,
      ih bfs hnd (fun x hx => h x (List.mem_cons_of_mem _ hx))]
    simp [Ops.add_def, Ops.zero]

/-- The update loop does nothing when every candidate's remote copy is
at least as new. -/
theorem update_box_subfiles_loop_no_ops (now : Int) :
    ∀ (l : List FileNode) (bfs : List BoxFile),
      (bfs.map BoxFile.name).Nodup →
      (∀ f ∈ l, ∃ bf ∈ bfs, bf.name = f.name ∧ f.mtime ≤ bf.mtime) →
      update_box_subfiles_loop now l bfs = (bfs, []) := by
  intro l
  induction l with
  | nil => intro bfs _ _; rw [update_box_subfiles_loop]
  | cons f fs ih =>
    intro bfs hnd h
    rcases h f (List.mem_cons_self _ _) with ⟨bf, hbf, hbfn, hbfm⟩
    have hcor : get_corresponding_box_subfile (LocalEntry.mk f.name false true) bfs
        = some bf := by
      have := get_corresponding_box_subfile_of_mem hnd hbf
      rwa [hbfn] at this
    rw [update_box_subfiles_loop_cons_some now f fs bfs bf hcor,
      if_neg (by omega : ¬ bf.mtime < f.mtime)]
    exact ih bfs hnd (fun x hx => h x (List.mem_cons_of_mem _ hx))

/-- A second sync run against a synced state performs zero
operations and leaves the remote tree unchanged. -/
theorem sync_no_ops (uf : Bool) (now : Int) :
    ∀ t b, treeWF t = true → SyncedInv uf t b →
      sync_tree_object_items uf now t b = (b, Ops.zero) := by
  intro t
  induction t using DirNode.inductionOn with
  | step tn td tfolders tfiles ih =>
    intro b hwf hsync
    rcases b with ⟨bid, bname, bfolders, bfiles⟩
    rw [treeWF_mk_iff] at hwf
    rw [SyncedInv_mk_iff] at hsync
    simp only [boxFolderFoldersMk, boxFolderFilesMk] at hsync
    rcases hsync with ⟨hfsub, hflsub, hfnd, hflnd, hres, hfres⟩
    have hkeepF : bfolders.filter
        (fun bf => (tfolders.map DirNode.name).contains bf.name) = bfolders :=
      List.filter_eq_self.mpr (fun bf hbf => by simpa using hfsub bf hbf)
    have hremF : subfolders_in_box_not_in_treeobj (tfolders.map DirNode.name) bfolders
        = [] := by
      rw [subfolders_in_box_not_in_treeobj, List.filter_eq_nil_iff]
      intro bf hbf
      simpa using hfsub bf hbf
    have hkeepFl : bfiles.filter
        (fun bf => (tfiles.map FileNode.name).contains bf.name) = bfiles :=
      List.filter_eq_self.mpr (fun bf hbf => by simpa using hflsub bf hbf)
    have hremFl : subfiles_in_box_not_in_treeobj (tfiles.map FileNode.name) bfiles
        = [] := by
      rw [subfiles_in_box_not_in_treeobj, List.filter_eq_nil_iff]
      intro bf hbf
      simpa using hflsub bf hbf
    have hnew : subfolders_in_treeobj_not_in_box (bfolders.map BoxFolder.name) tfolders
        = [] := by
      rw [subfolders_in_treeobj_not_in_box, List.filter_eq_nil_iff]
      intro c hc
      rcases hres c hc with ⟨cb, hcb, _⟩
      simpa using name_mem_of_get_corresponding hcb
    have hold : subfolders_in_treeobj_in_box (bfolders.map BoxFolder.name) tfolders
        = tfolders := by
      rw [subfolders_in_treeobj_in_box]
      refine List.filter_eq_self.mpr (fun c hc => ?_)
      rcases hres c hc with ⟨cb, hcb, _⟩
      simpa using name_mem_of_get_corresponding hcb
    have hnewfl : subfiles_in_treeobj_not_in_box (bfiles.map BoxFile.name) tfiles
        = [] := by
      rw [subfiles_in_treeobj_not_in_box, List.filter_eq_nil_iff]
      intro f hf
      rcases hfres f hf with ⟨bf, hbf, hbfn, _⟩
      simpa using List.mem_map.mpr ⟨bf, hbf, hbfn⟩
    have holdfl : subfiles_in_treeobj_in_box (bfiles.map BoxFile.name) tfiles
        = tfiles := by
      rw [subfiles_in_treeobj_in_box]
      refine List.filter_eq_self.mpr (fun f hf => ?_)
      rcases hfres f hf with ⟨bf, hbf, hbfn, _⟩
      simpa using List.mem_map.mpr ⟨bf, hbf, hbfn⟩
    rw [sync_tree_object_items]
    simp only [remove_box_subfolders, remove_box_subfiles, hkeepF, hremF, hkeepFl, hremFl,
      hnew, hold, hnewfl, create_box_subfiles, update_box_subfiles, holdfl,
      sync_new_subfolders_nil, List.map_nil, List.length_nil, List.append_nil]
    have holdsync : sync_old_subfolders uf now tfolders bfolders = (bfolders, Ops.zero) := by
      refine sync_old_subfolders_no_ops uf now tfolders bfolders hfnd (fun c hc => ?_)
      rcases hres c hc with ⟨cb, hcb, hcbs⟩
      have hcbwf : treeWF c = true := hwf.2.2 c hc
      exact ⟨cb, hcb, ih c hc cb hcbwf hcbs⟩
    rw [holdsync]
    by_cases huf : uf = true
    · rw [if_pos huf]
      have hupd : update_box_subfiles_loop now tfiles bfiles = (bfiles, []) := by
        refine update_box_subfiles_loop_no_ops now tfiles bfiles hflnd (fun f hf => ?_)
        rcases hfres f hf with ⟨bf, hbf, hbfn, hbfm⟩
        exact ⟨bf, hbf, hbfn, hbfm huf⟩
      rw [hupd]
      simp [Ops.add_def, Ops.zero]
    · rw [if_neg huf]
      simp [Ops.add_def, Ops.zero]

/-- The created-subfolders loop appends the synced fresh subfolders in
order. -/
theorem sync_new_subfolders_fst (uf : Bool) (now : Int) :
    ∀ (cs : List DirNode) (bfs : List BoxFolder),
      (sync_new_subfolders uf now cs bfs).1
        = bfs ++ cs.map
            (fun c => (sync_tree_object_items uf now c (BoxFolder.mk c.name c.name [] [])).1) := by
  intro cs
  induction cs with
  | nil => intro bfs; rw [sync_new_subfolders_nil]; simp
  | cons c cs ih =>
    intro bfs
    rw [sync_new_subfolders_cons]
    simp only
    rw [ih]
    simp

/-- The update loop preserves the listing's name sequence. -/
theorem update_box_subfiles_loop_names (now : Int) :
    ∀ (l : List FileNode) (bfs : List BoxFile),
      (update_box_subfiles_loop now l bfs).1.map BoxFile.name = bfs.map BoxFile.name := by
  intro l
  induction l with
  | nil => intro bfs; rw [update_box_subfiles_loop]
  | cons f fs ih =>
    intro bfs
    rcases hc : get_corresponding_box_subfile (LocalEntry.mk f.name false true) bfs
      with _ | corres
    · rw [update_box_subfiles_loop_cons_none now f fs bfs hc]
      exact ih bfs
    · rw [update_box_subfiles_loop_cons_some now f fs bfs corres hc]
      by_cases hlt : corres.mtime < f.mtime
      · rw [if_pos hlt]
        simp only
        rw [ih, replace_box_subfile_map_name f.name _ rfl bfs]
      · rw [if_neg hlt]
        exact ih bfs

/-- The update loop leaves entries outside the candidate names in
place. -/
theorem update_box_subfiles_loop_keeps_other (now : Int) :
    ∀ (l : List FileNode) (bfs : List BoxFile) (bf : BoxFile),
      bf ∈ bfs → bf.name ∉ l.map FileNode.name →
      bf ∈ (update_box_subfiles_loop now l bfs).1 := by
  intro l
  induction l with
  | nil => intro bfs bf hbf _; rw [update_box_subfiles_loop]; exact hbf
  | cons f fs ih =>
    intro bfs bf hbf hnot
    have hne : bf.name ≠ f.name := by
      intro h
      exact hnot (by rw [List.map_cons]; exact h ▸ List.mem_cons_self _ _)
    have hnot' : bf.name ∉ fs.map FileNode.name := by
      intro h
      exact hnot (by rw [List.map_cons]; exact List.mem_cons_of_mem _ h)
    rcases hc : get_corresponding_box_subfile (LocalEntry.mk f.name false true) bfs
      with _ | corres
    · rw [update_box_subfiles_loop_cons_none now f fs bfs hc]
      exact ih bfs bf hbf hnot'
    · rw [update_box_subfiles_loop_cons_some now f fs bfs corres hc]
      by_cases hlt : corres.mtime < f.mtime
      · rw [if_pos hlt]
        simp only
        exact ih _ bf (replace_box_subfile_mem_of_ne hbf hne _) hnot'
      · rw [if_neg hlt]
        exact ih bfs bf hbf hnot'

/-- After the update pass, every candidate file's remote copy is at
least as new as the local file, provided the run instant bounds the
local instants. -/
theorem update_box_subfiles_loop_final (now : Int) :
    ∀ (l : List FileNode) (bfs : List BoxFile),
      (l.map FileNode.name).Nodup → (bfs.map BoxFile.name).Nodup →
      (∀ f ∈ l, f.mtime ≤ now) →
      (∀ f ∈ l, ∃ bf ∈ bfs, bf.name = f.name) →
      ∀ f ∈ l, ∃ bf' ∈ (update_box_subfiles_loop now l bfs).1,
        bf'.name = f.name ∧ f.mtime ≤ bf'.mtime := by
  intro l
  induction l with
  | nil => intro bfs _ _ _ _ f hf; cases hf
  | cons g gs ih =>
    intro bfs hl hbfs hnow hpres f hf
    have hgs : (gs.map FileNode.name).Nodup := (List.nodup_cons.mp (by simpa using hl)).2
    have hgnot : g.name ∉ gs.map FileNode.name := (List.nodup_cons.mp (by simpa using hl)).1
    rcases hpres g (List.mem_cons_self _ _) with ⟨bg, hbg, hbgn⟩
    have hcor : get_corresponding_box_subfile (LocalEntry.mk g.name false true) bfs
        = some bg := by
      have := get_corresponding_box_subfile_of_mem hbfs hbg
      rwa [hbgn] at this
    rw [update_box_subfiles_loop_cons_some now g gs bfs bg hcor]
    by_cases hlt : bg.mtime < g.mtime
    · rw [if_pos hlt]
      simp only
      have hrepl_nodup : ((replace_box_subfile g.name (BoxFile.mk bg.id g.name now) bfs).map
          BoxFile.name).Nodup := by
        rw [replace_box_subfile_map_name g.name _ rfl bfs]
        exact hbfs
      rcases List.mem_cons.mp hf with rfl | hf'
      · refine ⟨BoxFile.mk bg.id f.name now, ?_, rfl, hnow f (List.mem_cons_self _ _)⟩
        apply update_box_subfiles_loop_keeps_other now gs _ _ _ (by simpa using hgnot)
        have hmem : BoxFile.mk bg.id f.name now
            ∈ replace_box_subfile f.name (BoxFile.mk bg.id f.name now) bfs := by
          unfold replace_box_subfile
          have hbeq : (bg.name == f.name) = true := by simpa using hbgn
          have h := List.mem_map_of_mem
            (fun x : BoxFile => if x.name == f.name then BoxFile.mk bg.id f.name now else x) hbg
          have hstep : (fun x : BoxFile =>
              if x.name == f.name then BoxFile.mk bg.id f.name now else x) bg
              = BoxFile.mk bg.id f.name now := by
            show (if bg.name == f.name then BoxFile.mk bg.id f.name now else bg)
              = BoxFile.mk bg.id f.name now
            rw [if_pos hbeq]
          rw [hstep] at h
          exact h
        exact hmem
      · have hfne : f.name ≠ g.name := by
          intro heq
          exact hgnot (heq ▸ List.mem_map_of_mem FileNode.name hf')
        refine ih _ hgs hrepl_nodup (fun x hx => hnow x (List.mem_cons_of_mem _ hx))
          (fun x hx => ?_) f hf'
        rcases hpres x (List.mem_cons_of_mem _ hx) with ⟨bx, hbx, hbxn⟩
        by_cases hxg : bx.name = g.name
        · exfalso
          have : x.name = g.name := by rw [← hbxn, hxg]
          exact (List.nodup_cons.mp (by simpa using hl)).1
            (this ▸ List.mem_map_of_mem FileNode.name hx)
        · exact ⟨bx, replace_box_subfile_mem_of_ne hbx hxg _, hbxn⟩
    · rw [if_neg hlt]
      rcases List.mem_cons.mp hf with rfl | hf'
      · refine ⟨bg, ?_, hbgn, by omega⟩
        exact update_box_subfiles_loop_keeps_other now gs bfs bg hbg
          (by rw [hbgn]; simpa using hgnot)
      · refine ih bfs hgs hbfs (fun x hx => hnow x (List.mem_cons_of_mem _ hx))
          (fun x hx => hpres x (List.mem_cons_of_mem _ hx)) f hf'

/-- The existing-subfolders loop: names are preserved, every visited
child ends up resolvable to a synced subfolder, and lookups of
untouched names are unchanged. -/
theorem sync_old_subfolders_spec (uf : Bool) (now : Int) :
    ∀ (cs : List DirNode) (A : List BoxFolder),
      (A.map BoxFolder.name).Nodup →
      (cs.map DirNode.name).Nodup →
      (∀ c ∈ cs, ∃ cb ∈ A, cb.name = c.name ∧ remoteWF cb = true) →
      (∀ c ∈ cs, ∀ cb : BoxFolder, remoteWF cb = true →
        SyncedInv uf c (sync_tree_object_items uf now c cb).1) →
      ((sync_old_subfolders uf now cs A).1.map BoxFolder.name = A.map BoxFolder.name)
      ∧ (∀ c ∈ cs, ∃ cb',
          get_corresponding_box_subfolder (LocalEntry.mk c.name true false)
            (sync_old_subfolders uf now cs A).1 = some cb' ∧ SyncedInv uf c cb')
      ∧ (∀ n : String, n ∉ cs.map DirNode.name →
          get_corresponding_box_subfolder (LocalEntry.mk n true false)
            (sync_old_subfolders uf now cs A).1
          = get_corresponding_box_subfolder (LocalEntry.mk n true false) A) := by
  intro cs
  induction cs with
  | nil =>
    intro A hA _ _ _
    rw [sync_old_subfolders_nil]
    exact ⟨rfl, fun c hc => absurd hc (List.not_mem_nil c), fun n _ => rfl⟩
  | cons c cs ih =>
    intro A hA hcs hpres hsync
    have hcsn : (cs.map DirNode.name).Nodup := (List.nodup_cons.mp (by simpa using hcs)).2
    have hcnot : c.name ∉ cs.map DirNode.name := (List.nodup_cons.mp (by simpa using hcs)).1
    rcases hpres c (List.mem_cons_self _ _) with ⟨cb, hcbA, hcbn, hcbwf⟩
    have hcor : get_corresponding_box_subfolder (LocalEntry.mk c.name true false) A
        = some cb := by
      have := get_corresponding_box_subfolder_of_mem hA hcbA
      rwa [hcbn] at this
    rw [sync_old_subfolders_cons_some uf now c cs A cb hcor]
    simp only
    have hsname : (sync_tree_object_items uf now c cb).1.name = c.name := by
      rw [(sync_tree_object_items_id_name uf now c cb).2, hcbn]
    have hA'names : (replace_box_subfolder c.name (sync_tree_object_items uf now c cb).1
        A).map BoxFolder.name = A.map BoxFolder.name :=
      replace_box_subfolder_map_name c.name _ hsname A
    have hA' : ((replace_box_subfolder c.name (sync_tree_object_items uf now c cb).1
        A).map BoxFolder.name).Nodup := by
      rw [hA'names]; exact hA
    have hpres' : ∀ x ∈ cs, ∃ cb' ∈ replace_box_subfolder c.name
        (sync_tree_object_items uf now c cb).1 A,
        cb'.name = x.name ∧ remoteWF cb' = true := by
      intro x hx
      rcases hpres x (List.mem_cons_of_mem _ hx) with ⟨cbx, hcbx, hcbxn, hcbxwf⟩
      have hxne : cbx.name ≠ c.name := by
        rw [hcbxn]
        intro heq
        exact hcnot (heq ▸ List.mem_map_of_mem DirNode.name hx)
      exact ⟨cbx, replace_box_subfolder_mem_of_ne hcbx hxne _, hcbxn, hcbxwf⟩
    have hsync' : ∀ x ∈ cs, ∀ cb' : BoxFolder, remoteWF cb' = true →
        SyncedInv uf x (sync_tree_object_items uf now x cb').1 :=
      fun x hx => hsync x (List.mem_cons_of_mem _ hx)
    rcases ih (replace_box_subfolder c.name (sync_tree_object_items uf now c cb).1 A)
      hA' hcsn hpres' hsync' with ⟨hi, hii, hiii⟩
    refine ⟨by rw [hi, hA'names], ?_, ?_⟩
    · intro x hx
      rcases List.mem_cons.mp hx with rfl | hx'
      · refine ⟨(sync_tree_object_items uf now x cb).1, ?_,
          hsync x (List.mem_cons_self _ _) cb hcbwf⟩
        rw [hiii x.name hcnot]
        exact get_corresponding_box_subfolder_replace_self ⟨cb, hcbA, hcbn⟩ hsname hA
      · exact hii x hx'
    · intro n hn
      have hn1 : n ≠ c.name := by
        intro heq
        exact hn (by rw [List.map_cons, heq]; exact List.mem_cons_self _ _)
      have hn2 : n ∉ cs.map DirNode.name := by
        intro h
        exact hn (by rw [List.map_cons]; exact List.mem_cons_of_mem _ h)
      rw [hiii n hn2]
      exact get_corresponding_box_subfolder_replace_ne hn1 hsname A

/-- An empty fresh Box subfolder is well-formed. -/
theorem remoteWF_fresh (i n : String) : remoteWF (BoxFolder.mk i n [] []) = true := by
  rw [remoteWF_mk_iff]
  exact ⟨List.nodup_nil, List.nodup_nil, by simp⟩

/-- One sync run establishes the synced state: afterwards the remote
folder mirrors the desired tree by name, and (with updates on) every
mirrored file is at least as new as its local source. -/
theorem sync_establishes (uf : Bool) (now : Int) :
    ∀ t b, treeWF t = true → remoteWF b = true → mtimesLE now t = true →
      SyncedInv uf t (sync_tree_object_items uf now t b).1 := by
  intro t
  induction t using DirNode.inductionOn with
  | step tn td tfolders tfiles ih =>
    intro b hwf hrwf hmt
    rcases b with ⟨bid, bname, bfolders, bfiles⟩
    rw [treeWF_mk_iff] at hwf
    rw [remoteWF_mk_iff] at hrwf
    rw [mtimesLE_mk_iff] at hmt
    have hsynname : ∀ c : DirNode,
        (sync_tree_object_items uf now c (BoxFolder.mk c.name c.name [] [])).1.name
          = c.name := fun c =>
      (sync_tree_object_items_id_name uf now c (BoxFolder.mk c.name c.name [] [])).2
    -- folder-side abbreviations and facts
    have hkept_nodup : ((bfolders.filter
        (fun bf => (tfolders.map DirNode.name).contains bf.name)).map
          BoxFolder.name).Nodup :=
      hrwf.1.sublist (List.Sublist.map BoxFolder.name (List.filter_sublist bfolders))
    have hnew_nodup : ((subfolders_in_treeobj_not_in_box (bfolders.map BoxFolder.name)
        tfolders).map DirNode.name).Nodup :=
      hwf.1.sublist (List.Sublist.map DirNode.name (List.filter_sublist tfolders))
    have hold_nodup : ((subfolders_in_treeobj_in_box (bfolders.map BoxFolder.name)
        tfolders).map DirNode.name).Nodup :=
      hwf.1.sublist (List.Sublist.map DirNode.name (List.filter_sublist tfolders))
    have hAfst : (sync_new_subfolders uf now
        (subfolders_in_treeobj_not_in_box (bfolders.map BoxFolder.name) tfolders)
        (bfolders.filter (fun bf => (tfolders.map DirNode.name).contains bf.name))).1
        = bfolders.filter (fun bf => (tfolders.map DirNode.name).contains bf.name)
          ++ (subfolders_in_treeobj_not_in_box (bfolders.map BoxFolder.name) tfolders).map
            (fun c => (sync_tree_object_items uf now c (BoxFolder.mk c.name c.name [] [])).1) :=
      sync_new_subfolders_fst uf now _ _
    have hcreated_names : ((subfolders_in_treeobj_not_in_box (bfolders.map BoxFolder.name)
        tfolders).map
          (fun c => (sync_tree_object_items uf now c
            (BoxFolder.mk c.name c.name [] [])).1)).map BoxFolder.name
        = (subfolders_in_treeobj_not_in_box (bfolders.map BoxFolder.name) tfolders).map
            DirNode.name := by
      rw [List.map_map]
      exact List.map_congr_left (fun c _ => hsynname c)
    have hAnames : (sync_new_subfolders uf now
        (subfolders_in_treeobj_not_in_box (bfolders.map BoxFolder.name) tfolders)
        (bfolders.filter (fun bf => (tfolders.map DirNode.name).contains bf.name))).1.map
          BoxFolder.name
        = (bfolders.filter (fun bf => (tfolders.map DirNode.name).contains bf.name)).map
            BoxFolder.name
          ++ (subfolders_in_treeobj_not_in_box (bfolders.map BoxFolder.name) tfolders).map
              DirNode.name := by
      rw [hAfst, List.map_append, hcreated_names]
    have hkept_names_sub : ∀ n, n ∈ ((bfolders.filter
        (fun bf => (tfolders.map DirNode.name).contains bf.name)).map BoxFolder.name)
        → n ∈ bfolders.map BoxFolder.name := by
      intro n hn
      rcases List.mem_map.mp hn with ⟨bf, hbf, rfl⟩
      exact List.mem_map_of_mem BoxFolder.name (List.mem_of_mem_filter hbf)
    have hnew_names_notin : ∀ n, n ∈ ((subfolders_in_treeobj_not_in_box
        (bfolders.map BoxFolder.name) tfolders).map DirNode.name)
        → n ∉ bfolders.map BoxFolder.name := by
      intro n hn
      rcases List.mem_map.mp hn with ⟨c, hc, rfl⟩
      have := (List.mem_filter.mp hc).2
      simpa using this
    have hAnodup : ((sync_new_subfolders uf now
        (subfolders_in_treeobj_not_in_box (bfolders.map BoxFolder.name) tfolders)
        (bfolders.filter (fun bf => (tfolders.map DirNode.name).contains bf.name))).1.map
          BoxFolder.name).Nodup := by
      rw [hAnames, List.nodup_append]
      exact ⟨hkept_nodup, hnew_nodup,
        fun n hn hn2 => hnew_names_notin n hn2 (hkept_names_sub n hn)⟩
    have hpres : ∀ c ∈ subfolders_in_treeobj_in_box (bfolders.map BoxFolder.name) tfolders,
        ∃ cb ∈ (sync_new_subfolders uf now
          (subfolders_in_treeobj_not_in_box (bfolders.map BoxFolder.name) tfolders)
          (bfolders.filter (fun bf => (tfolders.map DirNode.name).contains bf.name))).1,
          cb.name = c.name ∧ remoteWF cb = true := by
      intro c hc
      have hcsnap : c.name ∈ bfolders.map BoxFolder.name := by
        have := (List.mem_filter.mp hc).2
        simpa using this
      rcases List.mem_map.mp hcsnap with ⟨bf, hbf, hbfn⟩
      have hbfkept : bf ∈ bfolders.filter
          (fun x => (tfolders.map DirNode.name).contains x.name) := by
        refine List.mem_filter.mpr ⟨hbf, ?_⟩
        have : c.name ∈ tfolders.map DirNode.name :=
          List.mem_map_of_mem DirNode.name (List.mem_of_mem_filter hc)
        rw [hbfn]
        simpa using this
      refine ⟨bf, ?_, hbfn, hrwf.2.2 bf hbf⟩
      rw [hAfst]
      exact List.mem_append_left _ hbfkept
    have hsyncrec : ∀ c ∈ subfolders_in_treeobj_in_box (bfolders.map BoxFolder.name)
        tfolders, ∀ cb : BoxFolder, remoteWF cb = true →
        SyncedInv uf c (sync_tree_object_items uf now c cb).1 := by
      intro c hc cb hcb
      have hcm := List.mem_of_mem_filter hc
      exact ih c hcm cb (hwf.2.2 c hcm) hcb (hmt.2 c hcm)
    rcases sync_old_subfolders_spec uf now
      (subfolders_in_treeobj_in_box (bfolders.map BoxFolder.name) tfolders)
      (sync_new_subfolders uf now
        (subfolders_in_treeobj_not_in_box (bfolders.map BoxFolder.name) tfolders)
        (bfolders.filter (fun bf => (tfolders.map DirNode.name).contains bf.name))).1
      hAnodup hold_nodup hpres hsyncrec with ⟨hBnames, hBres, hBstable⟩
    -- file-side facts
    have hkeptfl_nodup : ((bfiles.filter
        (fun bf => (tfiles.map FileNode.name).contains bf.name)).map BoxFile.name).Nodup :=
      hrwf.2.1.sublist (List.Sublist.map BoxFile.name (List.filter_sublist bfiles))
    have hnewfl_nodup : ((subfiles_in_treeobj_not_in_box (bfiles.map BoxFile.name)
        tfiles).map FileNode.name).Nodup :=
      hwf.2.1.sublist (List.Sublist.map FileNode.name (List.filter_sublist tfiles))
    have hfiles1_names : (bfiles.filter
          (fun bf => (tfiles.map FileNode.name).contains bf.name)
        ++ (subfiles_in_treeobj_not_in_box (bfiles.map BoxFile.name) tfiles).map
            (fun f => BoxFile.mk f.name f.name now)).map BoxFile.name
        = (bfiles.filter (fun bf => (tfiles.map FileNode.name).contains bf.name)).map
            BoxFile.name
          ++ (subfiles_in_treeobj_not_in_box (bfiles.map BoxFile.name) tfiles).map
              FileNode.name := by
      rw [List.map_append, List.map_map]
      rfl
    have hfiles1_nodup : ((bfiles.filter
          (fun bf => (tfiles.map FileNode.name).contains bf.name)
        ++ (subfiles_in_treeobj_not_in_box (bfiles.map BoxFile.name) tfiles).map
            (fun f => BoxFile.mk f.name f.name now)).map BoxFile.name).Nodup := by
      rw [hfiles1_names, List.nodup_append]
      refine ⟨hkeptfl_nodup, hnewfl_nodup, ?_⟩
      intro n hn hn2
      rcases List.mem_map.mp hn with ⟨bf, hbf, rfl⟩
      rcases List.mem_map.mp hn2 with ⟨f, hf, hfn⟩
      have h1 : bf.name ∈ bfiles.map BoxFile.name :=
        List.mem_map_of_mem BoxFile.name (List.mem_of_mem_filter hbf)
      have hcont : (bfiles.map BoxFile.name).contains bf.name = true := by simpa using h1
      have h2 := (List.mem_filter.mp hf).2
      simp [hfn, hcont] at h2
      rcases List.mem_map.mp h1 with ⟨x, hx, hxn⟩
      exact h2 x hx hxn
    -- folder-side invariant clauses
    have hclause1 : ∀ bf ∈ (sync_old_subfolders uf now
        (subfolders_in_treeobj_in_box (bfolders.map BoxFolder.name) tfolders)
        (sync_new_subfolders uf now
          (subfolders_in_treeobj_not_in_box (bfolders.map BoxFolder.name) tfolders)
          (bfolders.filter (fun bf => (tfolders.map DirNode.name).contains bf.name))).1).1,
        bf.name ∈ tfolders.map DirNode.name := by
      intro bf hbf
      have h1 : bf.name ∈ (sync_old_subfolders uf now
          (subfolders_in_treeobj_in_box (bfolders.map BoxFolder.name) tfolders)
          (sync_new_subfolders uf now
            (subfolders_in_treeobj_not_in_box (bfolders.map BoxFolder.name) tfolders)
            (bfolders.filter
              (fun bf => (tfolders.map DirNode.name).contains bf.name))).1).1.map
            BoxFolder.name := List.mem_map_of_mem BoxFolder.name hbf
      rw [hBnames, hAnames] at h1
      rcases List.mem_append.mp h1 with h2 | h2
      · rcases List.mem_map.mp h2 with ⟨x, hx, hxn⟩
        have := (List.mem_filter.mp hx).2
        rw [← hxn]
        simpa using this
      · rcases List.mem_map.mp h2 with ⟨c, hc, hcn⟩
        exact hcn ▸ List.mem_map_of_mem DirNode.name (List.mem_of_mem_filter hc)
    have hclause3 : ((sync_old_subfolders uf now
        (subfolders_in_treeobj_in_box (bfolders.map BoxFolder.name) tfolders)
        (sync_new_subfolders uf now
          (subfolders_in_treeobj_not_in_box (bfolders.map BoxFolder.name) tfolders)
          (bfolders.filter (fun bf => (tfolders.map DirNode.name).contains bf.name))).1).1.map
          BoxFolder.name).Nodup := by
      rw [hBnames]
      exact hAnodup
    have hclause5 : ∀ c ∈ tfolders, ∃ cb',
        get_corresponding_box_subfolder (LocalEntry.mk c.name true false)
          (sync_old_subfolders uf now
            (subfolders_in_treeobj_in_box (bfolders.map BoxFolder.name) tfolders)
            (sync_new_subfolders uf now
              (subfolders_in_treeobj_not_in_box (bfolders.map BoxFolder.name) tfolders)
              (bfolders.filter
                (fun bf => (tfolders.map DirNode.name).contains bf.name))).1).1
          = some cb' ∧ SyncedInv uf c cb' := by
      intro c hc
      by_cases hcsnap : c.name ∈ bfolders.map BoxFolder.name
      · refine hBres c ?_
        exact List.mem_filter.mpr ⟨hc, by simpa using hcsnap⟩
      · have hcnew : c ∈ subfolders_in_treeobj_not_in_box
            (bfolders.map BoxFolder.name) tfolders :=
          List.mem_filter.mpr ⟨hc, by simpa using hcsnap⟩
        have hcnotold : c.name ∉ (subfolders_in_treeobj_in_box
            (bfolders.map BoxFolder.name) tfolders).map DirNode.name := by
          intro h
          rcases List.mem_map.mp h with ⟨x, hx, hxn⟩
          have := (List.mem_filter.mp hx).2
          rw [hxn] at this
          exact hcsnap (by simpa using this)
        rw [hBstable c.name hcnotold]
        have hsmem : (sync_tree_object_items uf now c
            (BoxFolder.mk c.name c.name [] [])).1
            ∈ (sync_new_subfolders uf now
              (subfolders_in_treeobj_not_in_box (bfolders.map BoxFolder.name) tfolders)
              (bfolders.filter
                (fun bf => (tfolders.map DirNode.name).contains bf.name))).1 := by
          rw [hAfst]
          exact List.mem_append_right _ (List.mem_map_of_mem _ hcnew)
        have hcor := get_corresponding_box_subfolder_of_mem hAnodup hsmem
        rw [hsynname c] at hcor
        exact ⟨(sync_tree_object_items uf now c (BoxFolder.mk c.name c.name [] [])).1,
          hcor, ih c hc (BoxFolder.mk c.name c.name [] []) (hwf.2.2 c hc)
            (remoteWF_fresh c.name c.name) (hmt.2 c hc)⟩
    -- file-side invariant clauses against files1
    have hclause2' : ∀ bf ∈ bfiles.filter
          (fun bf => (tfiles.map FileNode.name).contains bf.name)
        ++ (subfiles_in_treeobj_not_in_box (bfiles.map BoxFile.name) tfiles).map
            (fun f => BoxFile.mk f.name f.name now),
        bf.name ∈ tfiles.map FileNode.name := by
      intro bf hbf
      rcases List.mem_append.mp hbf with h2 | h2
      · have := (List.mem_filter.mp h2).2
        simpa using this
      · rcases List.mem_map.mp h2 with ⟨f, hf, rfl⟩
        exact List.mem_map_of_mem FileNode.name (List.mem_of_mem_filter hf)
    have hpresfl : ∀ f ∈ tfiles, ∃ bf ∈ bfiles.filter
          (fun bf => (tfiles.map FileNode.name).contains bf.name)
        ++ (subfiles_in_treeobj_not_in_box (bfiles.map BoxFile.name) tfiles).map
            (fun g => BoxFile.mk g.name g.name now),
        bf.name = f.name ∧ (f.name ∉ bfiles.map BoxFile.name → bf.mtime = now) := by
      intro f hf
      by_cases hsnap : f.name ∈ bfiles.map BoxFile.name
      · rcases List.mem_map.mp hsnap with ⟨bf, hbf, hbfn⟩
        refine ⟨bf, List.mem_append_left _ (List.mem_filter.mpr ⟨hbf, ?_⟩), hbfn,
          fun h => absurd hsnap h⟩
        have : f.name ∈ tfiles.map FileNode.name := List.mem_map_of_mem FileNode.name hf
        rw [hbfn]
        simpa using this
      · refine ⟨BoxFile.mk f.name f.name now, ?_, rfl, fun _ => rfl⟩
        refine List.mem_append_right _ (List.mem_map_of_mem _ ?_)
        exact List.mem_filter.mpr ⟨hf, by simpa using hsnap⟩
    have hcand_nodup : ((subfiles_in_treeobj_in_box (bfiles.map BoxFile.name) tfiles).map
        FileNode.name).Nodup :=
      hwf.2.1.sublist (List.Sublist.map FileNode.name (List.filter_sublist tfiles))
    -- assemble the invariant for the sync result
    rw [sync_tree_object_items]
    simp only [remove_box_subfolders, remove_box_subfiles, create_box_subfiles,
      update_box_subfiles]
    by_cases huf : uf = true
    · rw [if_pos huf]
      rw [SyncedInv_mk_iff]
      simp only [boxFolderFoldersMk, boxFolderFilesMk]
      refine ⟨hclause1, ?_, hclause3, ?_, hclause5, ?_⟩
      · intro bfl hbfl
        have h1 : bfl.name ∈ (update_box_subfiles_loop now
            (subfiles_in_treeobj_in_box (bfiles.map BoxFile.name) tfiles)
            (bfiles.filter (fun bf => (tfiles.map FileNode.name).contains bf.name)
              ++ (subfiles_in_treeobj_not_in_box (bfiles.map BoxFile.name) tfiles).map
                  (fun f => BoxFile.mk f.name f.name now))).1.map BoxFile.name :=
          List.mem_map_of_mem BoxFile.name hbfl
        rw [update_box_subfiles_loop_names] at h1
        rcases List.mem_map.mp h1 with ⟨x, hx, hxn⟩
        exact hxn ▸ hclause2' x hx
      · rw [update_box_subfiles_loop_names]
        exact hfiles1_nodup
      · intro f hf
        by_cases hsnap : f.name ∈ bfiles.map BoxFile.name
        · have hfc : f ∈ subfiles_in_treeobj_in_box (bfiles.map BoxFile.name) tfiles :=
            List.mem_filter.mpr ⟨hf, by simpa using hsnap⟩
          rcases update_box_subfiles_loop_final now
            (subfiles_in_treeobj_in_box (bfiles.map BoxFile.name) tfiles)
            (bfiles.filter (fun bf => (tfiles.map FileNode.name).contains bf.name)
              ++ (subfiles_in_treeobj_not_in_box (bfiles.map BoxFile.name) tfiles).map
                  (fun f => BoxFile.mk f.name f.name now))
            hcand_nodup hfiles1_nodup
            (fun g hg => hmt.1 g (List.mem_of_mem_filter hg))
            (fun g hg => by
              rcases hpresfl g (List.mem_of_mem_filter hg) with ⟨bf, hbf, hbfn, _⟩
              exact ⟨bf, hbf, hbfn⟩)
            f hfc with ⟨bf', hbf', hbfn', hble⟩
          exact ⟨bf', hbf', hbfn', fun _ => hble⟩
        · rcases hpresfl f hf with ⟨bf, hbf, hbfn, hbnow⟩
          have hbfnow : bf.mtime = now := hbnow hsnap
          have hnotc : bf.name ∉ (subfiles_in_treeobj_in_box (bfiles.map BoxFile.name)
              tfiles).map FileNode.name := by
            rw [hbfn]
            intro h
            rcases List.mem_map.mp h with ⟨g, hg, hgn⟩
            have := (List.mem_filter.mp hg).2
            rw [hgn] at this
            exact hsnap (by simpa using this)
          refine ⟨bf, update_box_subfiles_loop_keeps_other now _ _ bf hbf hnotc, hbfn,
            fun _ => ?_⟩
          rw [hbfnow]
          exact hmt.1 f hf
    · rw [if_neg huf]
      rw [SyncedInv_mk_iff]
      simp only [boxFolderFoldersMk, boxFolderFilesMk]
      refine ⟨hclause1, ?_, hclause3, hfiles1_nodup, hclause5, ?_⟩
      · intro bfl hbfl
        exact hclause2' bfl hbfl
      · intro f hf
        rcases hpresfl f hf with ⟨bf, hbf, hbfn, _⟩
        exact ⟨bf, hbf, hbfn, fun h => absurd h huf⟩


/-- Claim C7: the sync is idempotent.  After one full run against a
well-formed tree and remote folder, a second run against the unchanged
tree issues zero delete, create and update calls (and leaves the
remote state untouched). -/
theorem reconcile_idempotent (uf : Bool) (now now2 : Int) (t : DirNode) (b : BoxFolder)
    (h1 : treeWF t = true) (h2 : remoteWF b = true) (h3 : mtimesLE now t = true) :
    (sync_tree_object_items uf now2 t (sync_tree_object_items uf now t b).1).2 = Ops.zero
    ∧ (sync_tree_object_items uf now2 t (sync_tree_object_items uf now t b).1).1
      = (sync_tree_object_items uf now t b).1 := by
  have hinv := sync_establishes uf now t b h1 h2 h3
  have hsecond := sync_no_ops uf now2 t (sync_tree_object_items uf now t b).1 h1 hinv
  exact ⟨by rw [hsecond], by rw [hsecond]⟩

/-- Witness for C7 on a one-file tree synced into an empty remote
folder, updates enabled. -/
theorem reconcile_idempotent_witness :
    treeWF (DirNode.mk "root" 0 [] [FileNode.mk "i1.MRDC.1" "t1sag" 3 1]) = true
    ∧ remoteWF (BoxFolder.mk "0" "root" [] []) = true
    ∧ mtimesLE 5 (DirNode.mk "root" 0 [] [FileNode.mk "i1.MRDC.1" "t1sag" 3 1]) = true
    ∧ (sync_tree_object_items true 9
        (DirNode.mk "root" 0 [] [FileNode.mk "i1.MRDC.1" "t1sag" 3 1])
        (sync_tree_object_items true 5
          (DirNode.mk "root" 0 [] [FileNode.mk "i1.MRDC.1" "t1sag" 3 1])
          (BoxFolder.mk "0" "root" [] [])).1).2 = Ops.zero := by
  have h1 : treeWF (DirNode.mk "root" 0 [] [FileNode.mk "i1.MRDC.1" "t1sag" 3 1])
      = true := by
    rw [treeWF_mk_iff]
    exact ⟨by simp, by simp, by simp⟩
  have h2 : remoteWF (BoxFolder.mk "0" "root" [] []) = true := remoteWF_fresh "0" "root"
  have h3 : mtimesLE 5 (DirNode.mk "root" 0 [] [FileNode.mk "i1.MRDC.1" "t1sag" 3 1])
      = true := by
    rw [mtimesLE_mk_iff]
    refine ⟨?_, by simp⟩
    intro f hf
    rcases List.mem_singleton.mp hf with rfl
    decide
  exact ⟨h1, h2, h3,
    (reconcile_idempotent true 5 9
      (DirNode.mk "root" 0 [] [FileNode.mk "i1.MRDC.1" "t1sag" 3 1])
      (BoxFolder.mk "0" "root" [] []) h1 h2 h3).1⟩
